import Mathlib

/-!
Verification of the FootprintMRC profiler and locality-aware slab-reallocation
solver (class `facebook::cachelib::FootprintMRC`).

The C++ code is shallowly embedded: `double` arithmetic is modelled by exact
rationals (ℚ), `std::map` by association lists whose keys are strictly sorted,
`std::set` iteration by a sorted deduplicated list, and `std::sort` by a sort
producing a permutation ordered by the comparator.  The key-to-KeyHash
conversion (`std::stoull` with a hash fallback) is abstracted: records enter
the model already carrying their 64-bit fingerprint as a natural number.
-/

namespace FootprintMRC

/-- A ClassId (small integer identifier of a size class). -/
abbrev ClassId := Nat

/-- A 64-bit key fingerprint, modelled as a natural number. -/
abbrev KeyInt := Nat

/-- One access record stored in the ring: `(KeyHash, ClassId)`. -/
abbrev Rec := KeyInt × ClassId

/-- State of the circular access window:
`circularBuffer` (physical storage), `circularBufferMaxLen` (capacity `K`),
`currentBufferSize` and `bufferHeadIndex`, mirroring the private fields of
`FootprintMRC`. -/
structure RingState where
  buf : List Rec
  maxLen : Nat
  size : Nat
  head : Nat
  deriving Repr, DecidableEq

/-- Embedding of the constructor `FootprintMRC(size_t k)`: throws
`std::invalid_argument` when `k < 1`, otherwise resizes the buffer to `k`
default records and zeroes the indices. -/
def initRing (k : Nat) : Except String RingState :=
  if k < 1 then
    Except.error "Circular buffer size k must be at least 1."
  else
    Except.ok { buf := List.replicate k (0, 0), maxLen := k, size := 0, head := 0 }

/-- Embedding of `FootprintMRC::feed` (the mutex-guarded critical section):
defensive early return on an empty buffer, defensive head reset, write at the
head slot, head advance modulo `K`, size increment capped at `K`.  The key has
already been converted to its `KeyInt` fingerprint. -/
def feed (r : RingState) (key : KeyInt) (cls : ClassId) : RingState :=
  if r.buf.isEmpty ∨ r.maxLen = 0 then r
  else if r.head ≥ r.maxLen then
    { buf := r.buf.set 0 (key, cls)
      maxLen := r.maxLen
      size := if r.size < r.maxLen then r.size + 1 else r.size
      head := (0 + 1) % r.maxLen }
  else
    { buf := r.buf.set r.head (key, cls)
      maxLen := r.maxLen
      size := if r.size < r.maxLen then r.size + 1 else r.size
      head := (r.head + 1) % r.maxLen }

/-- Folding a whole sequence of accesses into the ring. -/
def feeds (r : RingState) (l : List Rec) : RingState :=
  l.foldl (fun s p => feed s p.1 p.2) r

lemma feeds_append (r : RingState) (l₁ l₂ : List Rec) :
    feeds r (l₁ ++ l₂) = feeds (feeds r l₁) l₂ := by
  simp [feeds, List.foldl_append]

/-- Length of the physical buffer is preserved by `feed`. -/
lemma feed_buf_length (r : RingState) (k : KeyInt) (c : ClassId) :
    (feed r k c).buf.length = r.buf.length := by
  unfold feed
  split
  · rfl
  · split <;> simp

lemma feed_maxLen (r : RingState) (k : KeyInt) (c : ClassId) :
    (feed r k c).maxLen = r.maxLen := by
  unfold feed
  split
  · rfl
  · split <;> rfl

/-- Core single-step lemma for the ring invariant. -/
lemma feed_step (K t : Nat) (hK : 1 ≤ K) (r : RingState)
    (hb : r.buf.length = K) (hm : r.maxLen = K)
    (hh : r.head = t % K) (hs : r.size = min t K) (k : KeyInt) (c : ClassId) :
    (feed r k c).buf.length = K ∧ (feed r k c).maxLen = K ∧
      (feed r k c).head = (t + 1) % K ∧ (feed r k c).size = min (t + 1) K := by
  have hKpos : 0 < K := hK
  have hne : ¬ (r.buf.isEmpty ∨ r.maxLen = 0) := by
    rcases r with ⟨buf, maxLen, size, head⟩
    simp only at hb hm
    subst hb hm
    simp only [List.isEmpty_iff, not_or]
    constructor
    · intro hnil
      rw [hnil] at hKpos
      simp at hKpos
    · omega
  have hlt : r.head < K := by
    rw [hh]; exact Nat.mod_lt _ hKpos
  have hno : ¬ r.head ≥ r.maxLen := by omega
  unfold feed
  rw [if_neg hne, if_neg hno]
  refine ⟨by simp [hb], hm, ?_, ?_⟩
  · show (r.head + 1) % r.maxLen = (t + 1) % K
    rw [hh, hm, Nat.mod_add_mod]
  · show (if r.size < r.maxLen then r.size + 1 else r.size) = min (t + 1) K
    rw [hs, hm]
    rcases Nat.lt_or_ge (min t K) K with hlt2 | hge2
    · rw [if_pos hlt2]; omega
    · rw [if_neg (by omega)]; omega

/-- Ring invariant propagated across any sequence of feeds. -/
lemma feeds_invariant (K : Nat) (hK : 1 ≤ K) :
    ∀ (l : List Rec) (t : Nat) (r : RingState),
      r.buf.length = K → r.maxLen = K → r.head = t % K → r.size = min t K →
      (feeds r l).buf.length = K ∧ (feeds r l).maxLen = K ∧
        (feeds r l).head = (t + l.length) % K ∧ (feeds r l).size = min (t + l.length) K
  | [], t, r => by
      intro h1 h2 h3 h4
      exact ⟨h1, h2, h3, h4⟩
  | p :: rest, t, r => by
      intro h1 h2 h3 h4
      have step := feed_step K t hK r h1 h2 h3 h4 p.1 p.2
      have ih := feeds_invariant K hK rest (t + 1) (feed r p.1 p.2)
        step.1 step.2.1 step.2.2.1 step.2.2.2
      have harr : t + 1 + rest.length = t + (rest.length + 1) := by omega
      refine ⟨ih.1, ih.2.1, ?_, ?_⟩
      · rw [show feeds r (p :: rest) = feeds (feed r p.1 p.2) rest from rfl]
        rw [ih.2.2.1, harr]
        rfl
      · rw [show feeds r (p :: rest) = feeds (feed r p.1 p.2) rest from rfl]
        rw [ih.2.2.2, harr]
        rfl

/-- C6: starting from a profiler constructed with capacity `K ≥ 1` and feeding
any sequence of `t` accesses, the ring state satisfies: physical buffer length
exactly `K`, `head = t mod K`, `size = min t K`; and a further feed writes its
`(KeyHash, classId)` record at the slot that was the head before the call.
(`feed` is a total function of the model: no feed can fail.) -/
theorem claim6_ring_invariant (k : Nat) (l : List Rec) (hk : 1 ≤ k) (r₀ : RingState)
    (hr : initRing k = Except.ok r₀) :
    (feeds r₀ l).buf.length = k ∧
      (feeds r₀ l).head = l.length % k ∧
      (feeds r₀ l).size = min l.length k ∧
      ∀ key cls,
        (feed (feeds r₀ l) key cls).buf[(feeds r₀ l).head]? = some (key, cls) := by
  have hr₀ : r₀ = { buf := List.replicate k (0, 0), maxLen := k, size := 0, head := 0 } := by
    unfold initRing at hr
    rw [if_neg (by omega)] at hr
    exact (Except.ok.inj hr).symm
  have base := feeds_invariant k hk l 0 r₀
    (by rw [hr₀]; simp) (by rw [hr₀]) (by rw [hr₀]; simp) (by rw [hr₀]; simp)
  have hlen : (feeds r₀ l).buf.length = k := base.1
  have hml : (feeds r₀ l).maxLen = k := base.2.1
  have hhd : (feeds r₀ l).head = l.length % k := by
    have := base.2.2.1
    simpa using this
  have hsz : (feeds r₀ l).size = min l.length k := by
    have := base.2.2.2
    simpa using this
  refine ⟨hlen, hhd, hsz, ?_⟩
  intro key cls
  set s := feeds r₀ l with hs
  have hhead_lt : s.head < k := by
    rw [hhd]; exact Nat.mod_lt _ (by omega)
  have hne : ¬ (s.buf.isEmpty ∨ s.maxLen = 0) := by
    simp only [List.isEmpty_iff, not_or]
    constructor
    · intro hnil
      rw [hnil] at hlen
      simp at hlen
      omega
    · omega
  have hno : ¬ s.head ≥ s.maxLen := by omega
  unfold feed
  rw [if_neg hne, if_neg hno]
  exact List.getElem?_set_self (by omega)

/-- C6 witness at a concrete ring: capacity 2, three feeds. -/
theorem claim6_ring_invariant_witness :
    (feeds { buf := [(0, 0), (0, 0)], maxLen := 2, size := 0, head := 0 }
        [(10, 1), (11, 2), (12, 1)]).buf.length = 2 ∧
      (feeds { buf := [(0, 0), (0, 0)], maxLen := 2, size := 0, head := 0 }
        [(10, 1), (11, 2), (12, 1)]).head = 3 % 2 := by
  have h := claim6_ring_invariant 2 [(10, 1), (11, 2), (12, 1)] (by decide)
    { buf := [(0, 0), (0, 0)], maxLen := 2, size := 0, head := 0 } (by rfl)
  exact ⟨h.1, h.2.1⟩

/-- Lookup in an association list (the `find`/`count`/`at` pattern of the C++
maps, order of entries irrelevant for the maps used here). -/
def alookup {α : Type} : List (Nat × α) → Nat → Option α
  | [], _ => none
  | p :: rest, k => if p.1 = k then some p.2 else alookup rest k

/-- Overwrite the value stored under key `k` (the `map[k] = v` pattern on a key
that is already present). -/
def updateA {α : Type} (l : List (Nat × α)) (k : Nat) (v : α) : List (Nat × α) :=
  l.map (fun p => if p.1 = k then (k, v) else p)

lemma alookup_eq_none {α : Type} (l : List (Nat × α)) (k : Nat) :
    alookup l k = none ↔ k ∉ l.map Prod.fst := by
  induction l with
  | nil => simp [alookup]
  | cons p rest ih =>
      by_cases h : p.1 = k
      · simp [alookup, h]
      · simp only [alookup, h, if_false, List.map_cons, List.mem_cons, ih]
        constructor
        · intro hk hor
          rcases hor with he | hm
          · exact h he.symm
          · exact hk hm
        · intro hk
          intro hm
          exact hk (Or.inr hm)

lemma alookup_mem {α : Type} (l : List (Nat × α)) (k : Nat) (v : α)
    (h : alookup l k = some v) : (k, v) ∈ l := by
  induction l with
  | nil => simp [alookup] at h
  | cons p rest ih =>
      by_cases hp : p.1 = k
      · rw [alookup, if_pos hp] at h
        have hv : p.2 = v := Option.some.inj h
        have hpe : p = (k, v) := by
          cases p
          simp only at hp hv
          rw [hp, hv]
        rw [← hpe]
        exact List.mem_cons_self p rest
      · rw [alookup, if_neg hp] at h
        right
        exact ih h

lemma updateA_map_fst {α : Type} (l : List (Nat × α)) (k : Nat) (v : α) :
    (updateA l k v).map Prod.fst = l.map Prod.fst := by
  induction l with
  | nil => rfl
  | cons p rest ih =>
      simp only [updateA, List.map_cons] at ih ⊢
      by_cases h : p.1 = k
      · simp [h, ih]
      · simp [h, ih]

lemma mem_updateA {α : Type} {l : List (Nat × α)} {k : Nat} {v : α} {p : Nat × α}
    (h : p ∈ updateA l k v) : p = (k, v) ∨ p ∈ l := by
  induction l with
  | nil => simp [updateA] at h
  | cons q rest ih =>
      simp only [updateA, List.map_cons, List.mem_cons] at h
      rcases h with h | h
      · by_cases hq : q.1 = k
        · rw [if_pos hq] at h
          exact Or.inl h
        · rw [if_neg hq] at h
          exact Or.inr (List.mem_cons.mpr (Or.inl h))
      · rcases ih h with h2 | h2
        · exact Or.inl h2
        · exact Or.inr (List.mem_cons.mpr (Or.inr h2))

lemma updateA_of_not_mem {α : Type} (l : List (Nat × α)) (k : Nat) (v : α)
    (h : k ∉ l.map Prod.fst) : updateA l k v = l := by
  induction l with
  | nil => rfl
  | cons p rest ih =>
      simp only [List.map_cons, List.mem_cons, not_or] at h
      simp only [updateA, List.map_cons]
      rw [if_neg (fun he => h.1 he.symm)]
      have := ih h.2
      simp only [updateA] at this
      rw [this]

lemma updateA_sum_snd (l : List (Nat × Nat)) (k j v : Nat)
    (hnd : (l.map Prod.fst).Nodup) (hl : alookup l k = some j) :
    ((updateA l k v).map (fun p => p.2 + 1)).sum + j =
      (l.map (fun p => p.2 + 1)).sum + v := by
  induction l with
  | nil => simp [alookup] at hl
  | cons p rest ih =>
      simp only [List.map_cons, List.nodup_cons] at hnd
      by_cases hp : p.1 = k
      · rw [alookup, if_pos hp] at hl
        have hj : p.2 = j := Option.some.inj hl
        have hrest : updateA rest k v = rest :=
          updateA_of_not_mem rest k v (by rw [← hp]; exact hnd.1)
        simp only [updateA, List.map_cons, if_pos hp]
        simp only [updateA] at hrest
        rw [hrest, hj]
        simp only [List.sum_cons]
        omega
      · rw [alookup, if_neg hp] at hl
        have := ih hnd.2 hl
        simp only [updateA, List.map_cons, if_neg hp, List.sum_cons] at this ⊢
        omega

lemma alookup_append {α : Type} (l m : List (Nat × α)) (k : Nat) :
    alookup (l ++ m) k = (alookup l k).or (alookup m k) := by
  induction l with
  | nil => simp [alookup]
  | cons p rest ih =>
      by_cases hp : p.1 = k
      · simp [alookup, hp]
      · simp [alookup, hp, ih]

/-- Per-class single-pass statistics state, mirroring the per-class slices of
`keyToFirstAccess`, `keyToLastAccess`, `reuseTimeHistogramByClass` (as the
multiset of recorded reuse distances) and the running local index.
`firstVals` stores the class-local index of each distinct key's first access
(the values of `keyToFirstAccess`). -/
structure CStats where
  firstVals : List Nat
  lastA : List (Nat × Nat)
  reuse : List Nat
  n : Nat
  deriving Repr, DecidableEq

/-- One iteration of the forward pass of `calculateWindowStats` for one class:
on a repeated key record the reuse distance and move the last-access index;
on a fresh key record first and last access. -/
def processAccess (s : CStats) (k : KeyInt) : CStats :=
  match alookup s.lastA k with
  | some j =>
      { firstVals := s.firstVals
        lastA := updateA s.lastA k s.n
        reuse := s.reuse ++ [s.n - j]
        n := s.n + 1 }
  | none =>
      { firstVals := s.firstVals ++ [s.n]
        lastA := s.lastA ++ [(k, s.n)]
        reuse := s.reuse
        n := s.n + 1 }

/-- Statistics of one class's sub-sequence of key fingerprints. -/
def classStats (ks : List KeyInt) : CStats :=
  ks.foldl processAccess ⟨[], [], [], 0⟩

/-- The class-local key sequence extracted from the logical window contents. -/
def subtrace (c : ClassId) (trace : List Rec) : List KeyInt :=
  trace.filterMap (fun r => if r.2 = c then some r.1 else none)

/-- Structural invariant of the statistics state.  `sumEq` is the per-key
telescoping identity: summing last indices equals summing first indices plus
all reuse distances. -/
structure StatsInv (s : CStats) : Prop where
  nodupKeys : (s.lastA.map Prod.fst).Nodup
  lastLt : ∀ p ∈ s.lastA, p.2 < s.n
  firstLt : ∀ v ∈ s.firstVals, v < s.n
  reuseBound : ∀ t ∈ s.reuse, 1 ≤ t ∧ t < s.n
  lenEq : s.lastA.length = s.firstVals.length
  sumEq : (s.lastA.map (fun p => p.2 + 1)).sum =
    (s.firstVals.map (· + 1)).sum + s.reuse.sum
  cntEq : s.reuse.length + s.firstVals.length = s.n

lemma statsInv_init : StatsInv ⟨[], [], [], 0⟩ := by
  constructor <;> simp

lemma processAccess_some (s : CStats) (k : KeyInt) (j : Nat)
    (hl : alookup s.lastA k = some j) :
    processAccess s k =
      { firstVals := s.firstVals
        lastA := updateA s.lastA k s.n
        reuse := s.reuse ++ [s.n - j]
        n := s.n + 1 } := by
  unfold processAccess
  rw [hl]

lemma processAccess_none (s : CStats) (k : KeyInt)
    (hl : alookup s.lastA k = none) :
    processAccess s k =
      { firstVals := s.firstVals ++ [s.n]
        lastA := s.lastA ++ [(k, s.n)]
        reuse := s.reuse
        n := s.n + 1 } := by
  unfold processAccess
  rw [hl]

lemma statsInv_step (s : CStats) (k : KeyInt) (h : StatsInv s) :
    StatsInv (processAccess s k) := by
  cases hl : alookup s.lastA k with
  | some j =>
      rw [processAccess_some s k j hl]
      have hj : (k, j) ∈ s.lastA := alookup_mem _ _ _ hl
      have hjlt : j < s.n := h.lastLt _ hj
      constructor
      · simpa [updateA_map_fst] using h.nodupKeys
      · intro p hp
        simp only at hp
        rcases mem_updateA hp with he | hm
        · rw [he]; simp only; omega
        · simp only
          exact Nat.lt_succ_of_lt (h.lastLt _ hm)
      · intro v hv
        simp only at hv ⊢
        exact Nat.lt_succ_of_lt (h.firstLt _ hv)
      · intro t ht
        simp only [List.mem_append, List.mem_singleton] at ht
        simp only
        rcases ht with hm | he
        · have := h.reuseBound _ hm; omega
        · subst he; omega
      · simpa [updateA] using h.lenEq
      · have hsum := updateA_sum_snd s.lastA k j s.n h.nodupKeys hl
        have hold := h.sumEq
        simp only [List.map_append, List.sum_append, List.map_cons, List.map_nil,
          List.sum_cons, List.sum_nil]
        omega
      · have := h.cntEq
        simp only [List.length_append, List.length_singleton]
        omega
  | none =>
      rw [processAccess_none s k hl]
      have hk : k ∉ s.lastA.map Prod.fst := (alookup_eq_none _ _).mp hl
      constructor
      · simp only [List.map_append, List.map_cons, List.map_nil]
        rw [List.nodup_append]
        refine ⟨h.nodupKeys, List.nodup_singleton k, ?_⟩
        intro a ha hb
        simp only [List.mem_singleton] at hb
        subst hb
        exact hk ha
      · intro p hp
        simp only [List.mem_append, List.mem_singleton] at hp
        simp only
        rcases hp with hm | he
        · exact Nat.lt_succ_of_lt (h.lastLt _ hm)
        · rw [he]; simp only; omega
      · intro v hv
        simp only [List.mem_append, List.mem_singleton] at hv
        simp only
        rcases hv with hm | he
        · exact Nat.lt_succ_of_lt (h.firstLt _ hm)
        · omega
      · intro t ht
        simp only at ht ⊢
        have := h.reuseBound _ ht; omega
      · have := h.lenEq
        simp only [List.length_append, List.length_singleton]
        omega
      · have := h.sumEq
        simp only [List.map_append, List.sum_append, List.map_cons, List.map_nil,
          List.sum_cons, List.sum_nil]
        omega
      · have := h.cntEq
        simp only [List.length_append, List.length_singleton]
        omega

lemma classStats_append (ks : List KeyInt) (k : KeyInt) :
    classStats (ks ++ [k]) = processAccess (classStats ks) k := by
  simp [classStats, List.foldl_append]

lemma statsInv_classStats (ks : List KeyInt) : StatsInv (classStats ks) := by
  induction ks using List.reverseRecOn with
  | nil => exact statsInv_init
  | append_singleton ks k ih =>
      rw [classStats_append]
      exact statsInv_step _ _ ih

lemma processAccess_n (s : CStats) (k : KeyInt) : (processAccess s k).n = s.n + 1 := by
  cases hl : alookup s.lastA k with
  | some j => rw [processAccess_some s k j hl]
  | none => rw [processAccess_none s k hl]

lemma classStats_n (ks : List KeyInt) : (classStats ks).n = ks.length := by
  induction ks using List.reverseRecOn with
  | nil => rfl
  | append_singleton ks k ih =>
      rw [classStats_append, processAccess_n, ih]
      simp

lemma alookup_isSome_iff {α : Type} (l : List (Nat × α)) (k : Nat) :
    (alookup l k).isSome ↔ k ∈ l.map Prod.fst := by
  rcases h : alookup l k with _ | v
  · have := (alookup_eq_none l k).mp h
    simp [this]
  · simp only [Option.isSome_some, true_iff]
    exact List.mem_map.mpr ⟨(k, v), alookup_mem _ _ _ h, rfl⟩

lemma classStats_keys (ks : List KeyInt) :
    ∀ key, key ∈ (classStats ks).lastA.map Prod.fst ↔ key ∈ ks := by
  induction ks using List.reverseRecOn with
  | nil => simp [classStats]
  | append_singleton ks k ih =>
      intro key
      rw [classStats_append]
      cases hl : alookup (classStats ks).lastA k with
      | some j =>
          rw [processAccess_some _ k j hl]
          have hkin : k ∈ ks := by
            rw [← ih k, ← alookup_isSome_iff, hl]
            rfl
          simp only [updateA_map_fst, ih key, List.mem_append, List.mem_singleton]
          constructor
          · exact Or.inl
          · intro h
            rcases h with h | h
            · exact h
            · rw [h]; exact hkin
      | none =>
          rw [processAccess_none _ k hl]
          simp only [List.map_append, List.map_cons, List.map_nil,
            List.mem_append, List.mem_singleton, ih key, List.mem_cons,
            List.not_mem_nil, or_false]

lemma classStats_seen (ks : List KeyInt) (key : KeyInt) :
    (alookup (classStats ks).lastA key).isSome ↔ key ∈ ks := by
  rw [alookup_isSome_iff, classStats_keys ks key]

lemma toFinset_append_singleton (ks : List KeyInt) (k : KeyInt) :
    (ks ++ [k]).toFinset = insert k ks.toFinset := by
  ext a
  simp [or_comm]

/-- Number of recorded first accesses equals the number of distinct keys. -/
lemma classStats_m (ks : List KeyInt) :
    (classStats ks).firstVals.length = ks.toFinset.card := by
  induction ks using List.reverseRecOn with
  | nil => simp [classStats]
  | append_singleton ks k ih =>
      rw [classStats_append]
      cases hl : alookup (classStats ks).lastA k with
      | some j =>
          rw [processAccess_some _ k j hl]
          have hkin : k ∈ ks := by
            rw [← classStats_seen, hl]
            rfl
          simp only [ih]
          rw [toFinset_append_singleton,
            Finset.insert_eq_self.mpr (List.mem_toFinset.mpr hkin)]
      | none =>
          rw [processAccess_none _ k hl]
          have hknot : k ∉ ks := by
            rw [← classStats_seen, hl]
            simp
          simp only [List.length_append, List.length_singleton, ih]
          rw [toFinset_append_singleton,
            Finset.card_insert_of_not_mem (fun hm => hknot (List.mem_toFinset.mp hm))]

/-- Multiset `F` of 1-indexed first access positions (the sorted vector
`firstAccessTimesByClass`; order is irrelevant to the sums consumed by
`calculateFpValues`). -/
def Fvals (s : CStats) : List Nat := s.firstVals.map (· + 1)

/-- Multiset `L` of reversed last access positions `n - lastAccess`
(the sorted vector `lastAccessTimesByClass`). -/
def Lvals (s : CStats) : List Nat := s.lastA.map (fun p => s.n - p.2)

/-- All three contribution multisets combined. -/
def allVals (s : CStats) : List Nat := Fvals s ++ (Lvals s ++ s.reuse)

/-- Tail contribution `Σ x in X, x > w, (x - w)`: the quantity the pointer
loops (`fW`, `lW`) and the suffix sums (`rW`) of `calculateFpValues` compute. -/
def hSum (X : List Nat) (w : Nat) : ℚ :=
  (X.map (fun x => if w < x then (x : ℚ) - w else 0)).sum

/-- Embedding of `calculateFpValues`: the footprint of one class at window
length `w`.  Index 0 of the result vector holds 0; for `w ∈ [1, n]` the loop
computes `m - (fW + lW + rW) / (n - w + 1)` (the denominator is a positive
`size_t` for `w ≤ n`). -/
def fpOf (s : CStats) (w : Nat) : ℚ :=
  if w = 0 then 0
  else ((s.firstVals.length : ℚ)) -
    (hSum (Fvals s) w + hSum (Lvals s) w + hSum s.reuse w) /
      ((s.n : ℚ) - (w : ℚ) + 1)

lemma hSum_append (X Y : List Nat) (w : Nat) :
    hSum (X ++ Y) w = hSum X w + hSum Y w := by
  simp [hSum]

lemma fpOf_pos_eq (s : CStats) (w : Nat) (hw : w ≠ 0) :
    fpOf s w = ((s.firstVals.length : ℚ)) -
      hSum (allVals s) w / ((s.n : ℚ) - (w : ℚ) + 1) := by
  rw [fpOf, if_neg hw, allVals, hSum_append, hSum_append]
  ring_nf

lemma hSum_nonneg (X : List Nat) (w : Nat) : 0 ≤ hSum X w := by
  apply List.sum_nonneg
  intro y hy
  rcases List.mem_map.mp hy with ⟨x, _, rfl⟩
  by_cases h : w < x
  · rw [if_pos h]
    have : (w : ℚ) < x := by exact_mod_cast h
    linarith
  · rw [if_neg h]

lemma hSum_succ (X : List Nat) (w : Nat) :
    hSum X w = hSum X (w + 1) + ((X.countP (fun x => decide (w < x)) : ℚ)) := by
  induction X with
  | nil => simp [hSum]
  | cons x xs ih =>
      simp only [hSum, List.map_cons, List.sum_cons, List.countP_cons] at ih ⊢
      have hstep : (if w < x then (x : ℚ) - w else 0) =
          (if w + 1 < x then (x : ℚ) - (w + 1) else 0) +
            (if decide (w < x) = true then 1 else 0) := by
        by_cases h1 : w < x
        · by_cases h2 : w + 1 < x
          · rw [if_pos h1, if_pos h2, if_pos (by simpa using h1)]
            ring
          · have hx : x = w + 1 := by omega
            rw [if_pos h1, if_neg h2, if_pos (by simpa using h1), hx]
            push_cast
            ring
        · have h2 : ¬ w + 1 < x := by omega
          rw [if_neg h1, if_neg h2, if_neg (by simpa using h1)]
          ring
      rw [ih]
      push_cast
      rw [hstep]
      ring

lemma hSum_le_count (X : List Nat) (w n : Nat) (hX : ∀ x ∈ X, x ≤ n) :
    hSum X w ≤ ((n : ℚ) - w) * ((X.countP (fun x => decide (w < x)) : ℚ)) := by
  induction X with
  | nil => simp [hSum]
  | cons x xs ih =>
      have hx : x ≤ n := hX x (List.mem_cons_self x xs)
      have hxs : ∀ y ∈ xs, y ≤ n := fun y hy => hX y (List.mem_cons.mpr (Or.inr hy))
      have ihx := ih hxs
      simp only [hSum, List.map_cons, List.sum_cons, List.countP_cons] at ihx ⊢
      by_cases h1 : w < x
      · rw [if_pos h1, if_pos (by simpa using h1)]
        push_cast
        have hterm : (x : ℚ) - w ≤ (n : ℚ) - w := by
          have : (x : ℚ) ≤ n := by exact_mod_cast hx
          linarith
        have := ihx
        nlinarith [hterm, this]
      · rw [if_neg h1, if_neg (by simpa using h1)]
        simpa using ihx

lemma hSum_eq_zero (X : List Nat) (w : Nat) (hX : ∀ x ∈ X, x ≤ w) :
    hSum X w = 0 := by
  apply List.sum_eq_zero
  intro y hy
  rcases List.mem_map.mp hy with ⟨x, hx, rfl⟩
  rw [if_neg (by have := hX x hx; omega)]

lemma hSum_one (X : List Nat) (hX : ∀ x ∈ X, 1 ≤ x) :
    hSum X 1 = ((X.sum : ℚ)) - X.length := by
  induction X with
  | nil => simp [hSum]
  | cons x xs ih =>
      have hx : 1 ≤ x := hX x (List.mem_cons_self x xs)
      have hxs : ∀ y ∈ xs, 1 ≤ y := fun y hy => hX y (List.mem_cons.mpr (Or.inr hy))
      simp only [hSum, List.map_cons, List.sum_cons, List.length_cons] at ih ⊢
      rw [ih hxs]
      by_cases h1 : 1 < x
      · rw [if_pos h1]
        push_cast
        ring
      · have hx1 : x = 1 := by omega
        rw [if_neg h1, hx1]
        push_cast
        ring

lemma sum_map_succ (l : List Nat) : (l.map (· + 1)).sum = l.sum + l.length := by
  induction l with
  | nil => rfl
  | cons x xs ih =>
      simp only [List.map_cons, List.sum_cons, List.length_cons, ih]
      omega

lemma sum_map_snd_succ (l : List (Nat × Nat)) :
    (l.map (fun p => p.2 + 1)).sum = (l.map Prod.snd).sum + l.length := by
  induction l with
  | nil => rfl
  | cons x xs ih =>
      simp only [List.map_cons, List.sum_cons, List.length_cons, ih]
      omega

lemma sum_map_sub (l : List (Nat × Nat)) (n : Nat) (h : ∀ p ∈ l, p.2 ≤ n) :
    (l.map (fun p => n - p.2)).sum + (l.map Prod.snd).sum = l.length * n := by
  induction l with
  | nil => simp
  | cons x xs ih =>
      have hx : x.2 ≤ n := h x (List.mem_cons_self x xs)
      have hxs : ∀ p ∈ xs, p.2 ≤ n := fun p hp => h p (List.mem_cons.mpr (Or.inr hp))
      simp only [List.map_cons, List.sum_cons, List.length_cons]
      have := ih hxs
      have harith : n - x.2 + x.2 = n := by omega
      calc n - x.2 + (xs.map (fun p => n - p.2)).sum + (x.2 + (xs.map Prod.snd).sum)
          = (n - x.2 + x.2) + ((xs.map (fun p => n - p.2)).sum + (xs.map Prod.snd).sum) := by
            omega
        _ = n + xs.length * n := by rw [harith, this]
        _ = (xs.length + 1) * n := by ring

lemma allVals_le (s : CStats) (h : StatsInv s) : ∀ x ∈ allVals s, x ≤ s.n := by
  intro x hx
  simp only [allVals, List.mem_append] at hx
  rcases hx with hf | hl | hr
  · rcases List.mem_map.mp hf with ⟨v, hv, rfl⟩
    have := h.firstLt v hv
    omega
  · rcases List.mem_map.mp hl with ⟨p, _, rfl⟩
    omega
  · have := h.reuseBound x hr
    omega

lemma allVals_pos (s : CStats) (h : StatsInv s) : ∀ x ∈ allVals s, 1 ≤ x := by
  intro x hx
  simp only [allVals, List.mem_append] at hx
  rcases hx with hf | hl | hr
  · rcases List.mem_map.mp hf with ⟨v, _, rfl⟩
    omega
  · rcases List.mem_map.mp hl with ⟨p, hp, rfl⟩
    have := h.lastLt p hp
    omega
  · exact (h.reuseBound x hr).1

lemma allVals_length (s : CStats) (h : StatsInv s) :
    (allVals s).length = s.n + s.firstVals.length := by
  simp only [allVals, List.length_append, Fvals, Lvals, List.length_map]
  have h1 := h.lenEq
  have h2 := h.cntEq
  omega

lemma allVals_sum (s : CStats) (h : StatsInv s) :
    (allVals s).sum = s.firstVals.length * s.n + s.firstVals.length := by
  simp only [allVals, List.sum_append, Fvals, Lvals]
  have hA : (s.firstVals.map (· + 1)).sum = s.firstVals.sum + s.firstVals.length :=
    sum_map_succ _
  have hB : (s.lastA.map (fun p => s.n - p.2)).sum + (s.lastA.map Prod.snd).sum =
      s.lastA.length * s.n :=
    sum_map_sub _ _ (fun p hp => Nat.le_of_lt (h.lastLt p hp))
  have hC : (s.lastA.map (fun p => p.2 + 1)).sum =
      (s.lastA.map Prod.snd).sum + s.lastA.length := sum_map_snd_succ _
  have hsum := h.sumEq
  have hfsum : (s.firstVals.map (· + 1)).sum = s.firstVals.sum + s.firstVals.length :=
    sum_map_succ _
  have hlen := h.lenEq
  rw [hfsum] at hsum
  rw [hC] at hsum
  rw [hlen] at hB hsum
  generalize hP : s.firstVals.length * s.n = P at hB ⊢
  omega

lemma fpOf_zero (s : CStats) : fpOf s 0 = 0 := by
  simp [fpOf]

lemma fpOf_one (s : CStats) (h : StatsInv s) (hn : 1 ≤ s.n) : fpOf s 1 = 1 := by
  rw [fpOf_pos_eq s 1 one_ne_zero]
  rw [hSum_one _ (allVals_pos s h), allVals_sum s h, allVals_length s h]
  have hn0 : ((s.n : ℚ)) ≠ 0 := by
    have : (1 : ℚ) ≤ (s.n : ℚ) := by exact_mod_cast hn
    linarith
  have hden : ((s.n : ℚ)) - (1 : ℚ) + 1 = (s.n : ℚ) := by ring
  push_cast
  field_simp

lemma fpOf_top (s : CStats) (h : StatsInv s) (hn : 1 ≤ s.n) :
    fpOf s s.n = ((s.firstVals.length : ℚ)) := by
  rw [fpOf_pos_eq s s.n (by omega)]
  rw [hSum_eq_zero _ _ (allVals_le s h)]
  simp

lemma fp_step (s : CStats) (h : StatsInv s) (w : Nat) (h1 : 1 ≤ w) (h2 : w < s.n) :
    fpOf s w ≤ fpOf s (w + 1) := by
  rw [fpOf_pos_eq s w (by omega), fpOf_pos_eq s (w + 1) (by omega)]
  set A := hSum (allVals s) w with hAdef
  set A2 := hSum (allVals s) (w + 1) with hA2def
  set c := (((allVals s).countP (fun x => decide (w < x)) : ℚ)) with hcdef
  have hA : A = A2 + c := hSum_succ _ _
  have hc : (0 : ℚ) ≤ c := by positivity
  have hle : A ≤ ((s.n : ℚ) - w) * c := hSum_le_count _ _ _ (allVals_le s h)
  have hwn : ((w : ℚ)) < (s.n : ℚ) := by exact_mod_cast h2
  have hd : (0 : ℚ) < (s.n : ℚ) - w := by linarith
  have hd1 : (0 : ℚ) < (s.n : ℚ) - w + 1 := by linarith
  have hden : ((s.n : ℚ)) - ((w : ℚ) + 1) + 1 = (s.n : ℚ) - w := by ring
  push_cast
  rw [hden]
  apply sub_le_sub_left
  rw [div_le_div_iff₀ hd hd1]
  nlinarith [hA, hc, hle, hd]

lemma fp_step_all (s : CStats) (h : StatsInv s) (hn : 1 ≤ s.n) (w : Nat)
    (hw : w < s.n) : fpOf s w ≤ fpOf s (w + 1) := by
  rcases Nat.eq_zero_or_pos w with hz | hp
  · subst hz
    rw [fpOf_zero, fpOf_one s h hn]
    norm_num
  · exact fp_step s h w hp hw

lemma fp_mono (s : CStats) (h : StatsInv s) (hn : 1 ≤ s.n) :
    ∀ w₁ w₂, w₁ ≤ w₂ → w₂ ≤ s.n → fpOf s w₁ ≤ fpOf s w₂ := by
  intro w₁ w₂ h12 h2n
  have key : ∀ k, w₁ + k ≤ s.n → fpOf s w₁ ≤ fpOf s (w₁ + k) := by
    intro k
    induction k with
    | zero => intro _; exact le_of_eq (by rw [Nat.add_zero])
    | succ k ih =>
        intro hk
        refine le_trans (ih (by omega)) ?_
        exact fp_step_all s h hn (w₁ + k) (by omega)
  have := key (w₂ - w₁) (by omega)
  rwa [show w₁ + (w₂ - w₁) = w₂ by omega] at this

/-- C3: for every class `c` present in a snapshot (so its class-local access
count `n_c ≥ 1`), the computed footprint function satisfies `fp_c(0) = 0`,
`fp_c(n_c) = m_c` where `m_c` is the distinct-key count of the class, and
`fp_c` is monotone non-decreasing on `[0, n_c]`. -/
theorem claim3_footprint (trace : List Rec) (c : ClassId) (st : CStats)
    (hst : st = classStats (subtrace c trace)) (hne : subtrace c trace ≠ []) :
    fpOf st 0 = 0 ∧
      st.n = (subtrace c trace).length ∧
      st.firstVals.length = (subtrace c trace).toFinset.card ∧
      fpOf st st.n = ((st.firstVals.length : ℚ)) ∧
      (∀ w₁ w₂, w₁ ≤ w₂ → w₂ ≤ st.n → fpOf st w₁ ≤ fpOf st w₂) := by
  subst hst
  have hinv := statsInv_classStats (subtrace c trace)
  have hn : 1 ≤ (classStats (subtrace c trace)).n := by
    rw [classStats_n]
    exact List.length_pos.mpr hne
  exact ⟨fpOf_zero _, classStats_n _, classStats_m _,
    fpOf_top _ hinv hn, fp_mono _ hinv hn⟩

/-- C3 witness: the trace `[key 5, key 5, key 7]` in class 0
(`n = 3`, `m = 2`). -/
theorem claim3_footprint_witness :
    fpOf (classStats (subtrace 0 [(5, 0), (5, 0), (7, 0)])) 0 = 0 ∧
      (classStats (subtrace 0 [(5, 0), (5, 0), (7, 0)])).n =
        (subtrace 0 [(5, 0), (5, 0), (7, 0)]).length ∧
      (classStats (subtrace 0 [(5, 0), (5, 0), (7, 0)])).firstVals.length =
        (subtrace 0 [(5, 0), (5, 0), (7, 0)]).toFinset.card ∧
      fpOf (classStats (subtrace 0 [(5, 0), (5, 0), (7, 0)]))
        (classStats (subtrace 0 [(5, 0), (5, 0), (7, 0)])).n =
        (((classStats (subtrace 0 [(5, 0), (5, 0), (7, 0)])).firstVals.length : ℚ)) ∧
      (∀ w₁ w₂, w₁ ≤ w₂ → w₂ ≤ (classStats (subtrace 0 [(5, 0), (5, 0), (7, 0)])).n →
        fpOf (classStats (subtrace 0 [(5, 0), (5, 0), (7, 0)])) w₁ ≤
          fpOf (classStats (subtrace 0 [(5, 0), (5, 0), (7, 0)])) w₂) :=
  claim3_footprint [(5, 0), (5, 0), (7, 0)] 0 _ rfl (by decide)

/-- Clamp to the unit interval, as `std::max(0.0, std::min(1.0, missRatio))`. -/
def clamp01 (x : ℚ) : ℚ := max 0 (min 1 x)

/-- Footprint value read back for a reuse distance `t`: the code reads
`fpValues[t]` when `0 < t < fpValues.size` (the vector has size `n + 1`) and
uses `0.0` otherwise. -/
def fpAt (s : CStats) (t : Nat) : ℚ :=
  if 1 ≤ t ∧ t ≤ s.n then fpOf s t else 0

/-- Hit count at object capacity `cs`: reuses whose reuse-window footprint is
strictly below the capacity. -/
def hitCnt (s : CStats) (cs : Nat) : Nat :=
  s.reuse.countP (fun t => decide (fpAt s t < ((cs : ℚ))))

/-- Miss ratio of one class at `slabCount` slabs (`allocsPerSlab = apc`
objects per slab), as computed inside the second `queryMrc` overload:
`1.0` unless both the class's access count and the object capacity are
positive, otherwise the clamped `1 - hitCount / totalAccesses`. -/
def missRatioAt (s : CStats) (apc slabCount : Nat) : ℚ :=
  if s.n ≠ 0 ∧ slabCount * apc ≠ 0 then
    clamp01 (1 - ((hitCnt s (slabCount * apc) : ℚ)) / ((s.n : ℚ)))
  else 1

/-- One class's result entry of `queryMrc`: the `mrcPoints` map, the
`mrcDelta` map of first differences, and the class's access frequency. -/
structure MrcEntry where
  points : List (Nat × ℚ)
  delta : List (Nat × ℚ)
  n : Nat
  deriving Repr, DecidableEq

/-- The entry built for one class: `mrcPoints[s]` for every
`s ∈ [0, maxSlabs]`, `mrcDelta[s] = mrcPoints[s-1] - mrcPoints[s]` for
`s ∈ [1, maxSlabs]`, and the access count. -/
def mkEntry (ks : List KeyInt) (apc maxSlabs : Nat) : MrcEntry :=
  { points := (List.range (maxSlabs + 1)).map
      (fun sc => (sc, missRatioAt (classStats ks) apc sc))
    delta := (List.range maxSlabs).map
      (fun i => (i + 1, missRatioAt (classStats ks) apc i -
        missRatioAt (classStats ks) apc (i + 1)))
    n := (classStats ks).n }

/-- Embedding of the map-returning `queryMrc` overload: empty result on an
empty window; one entry per class of `classIdToAllocsPerSlabMap` that has a
non-zero `allocsPerSlab` and is present in the window (iteration in key
order of the `std::map` argument). -/
def queryMrcMap (trace : List Rec) (apcMap : List (ClassId × Nat)) (maxSlabs : Nat) :
    List (ClassId × MrcEntry) :=
  if trace.isEmpty then []
  else
    apcMap.filterMap (fun p =>
      if p.2 = 0 then none
      else if (subtrace p.1 trace).isEmpty then none
      else some (p.1, mkEntry (subtrace p.1 trace) p.2 maxSlabs))

/-- Largest key of a points map (`rbegin()->first` of the `std::map`, whose
keys are sorted; for the fold this is the maximum over all keys). -/
def maxKey : List (Nat × ℚ) → Nat
  | [] => 0
  | p :: rest => max p.1 (maxKey rest)

/-- Embedding of `_getMissRatio`: resolve a miss ratio for `slabCount` from a
points map, with the `s = 0`, exact-hit, beyond-max and sparse-gap cases. -/
def getMissRatioAt (pts : List (Nat × ℚ)) (slabCount : Nat) : ℚ :=
  if slabCount = 0 then 1
  else
    match alookup pts slabCount with
    | some v => v
    | none =>
        if slabCount > (if pts.isEmpty then 0 else maxKey pts) then
          (alookup pts (if pts.isEmpty then 0 else maxKey pts)).getD 0
        else 1

lemma maxKey_mem (l : List (Nat × ℚ)) (h : l ≠ []) : maxKey l ∈ l.map Prod.fst := by
  induction l with
  | nil => exact absurd rfl h
  | cons p rest ih =>
      rcases eq_or_ne rest [] with hr | hr
      · subst hr
        simp [maxKey]
      · rcases Nat.le_total (maxKey rest) p.1 with hle | hle
        · simp only [maxKey, List.map_cons, List.mem_cons]
          exact Or.inl (by omega)
        · simp only [maxKey, List.map_cons, List.mem_cons]
          refine Or.inr ?_
          have hmax : max p.1 (maxKey rest) = maxKey rest := by omega
          rw [hmax]
          exact ih hr

lemma le_maxKey (l : List (Nat × ℚ)) : ∀ k ∈ l.map Prod.fst, k ≤ maxKey l := by
  induction l with
  | nil => simp
  | cons p rest ih =>
      intro k hk
      simp only [List.map_cons, List.mem_cons] at hk
      rcases hk with he | hm
      · simp only [maxKey]
        omega
      · have := ih k hm
        simp only [maxKey]
        omega

lemma isEmpty_false_of_ne {α : Type} (l : List α) (h : l ≠ []) :
    l.isEmpty = false := by
  cases l
  · exact absurd rfl h
  · rfl

/-- C5: the solver's miss-ratio lookup on a points map returns 1.0 at slab
count 0; the stored value when the count is a profiled key; the value stored
at the largest profiled count when the count exceeds it; and 1.0 when the
count is strictly between 0 and the largest profiled count but absent. -/
theorem claim5_lookup (pts : List (Nat × ℚ)) (s : Nat)
    (hne : pts ≠ []) (_hsorted : (pts.map Prod.fst).Sorted (· < ·)) :
    (s = 0 → getMissRatioAt pts s = 1) ∧
    (∀ v, s ≠ 0 → alookup pts s = some v → getMissRatioAt pts s = v) ∧
    (s ≠ 0 → maxKey pts < s →
      ∃ v, alookup pts (maxKey pts) = some v ∧ getMissRatioAt pts s = v) ∧
    (s ≠ 0 → alookup pts s = none → s < maxKey pts → getMissRatioAt pts s = 1) := by
  have hie : pts.isEmpty = false := isEmpty_false_of_ne pts hne
  refine ⟨?_, ?_, ?_, ?_⟩
  · intro h0
    rw [getMissRatioAt, if_pos h0]
  · intro v h0 hv
    rw [getMissRatioAt, if_neg h0, hv]
  · intro h0 hmax
    have hnone : alookup pts s = none := by
      rw [alookup_eq_none]
      intro hmem
      exact absurd (le_maxKey pts s hmem) (by omega)
    have hsome : (alookup pts (maxKey pts)).isSome :=
      (alookup_isSome_iff _ _).mpr (maxKey_mem pts hne)
    rcases Option.isSome_iff_exists.mp hsome with ⟨v, hv⟩
    refine ⟨v, hv, ?_⟩
    rw [getMissRatioAt, if_neg h0, hnone]
    simp only [hie, Bool.false_eq_true, if_false]
    rw [if_pos hmax, hv]
    rfl
  · intro h0 hnone hlt
    rw [getMissRatioAt, if_neg h0, hnone]
    simp only [hie, Bool.false_eq_true, if_false]
    rw [if_neg (by omega)]

/-- C5 witness: the points map `{1 ↦ 3/4, 3 ↦ 1/2}` at `s = 2` (sparse gap). -/
theorem claim5_lookup_witness :
    getMissRatioAt [(1, (3 : ℚ)/4), (3, (1 : ℚ)/2)] 2 = 1 :=
  (claim5_lookup [(1, (3 : ℚ)/4), (3, (1 : ℚ)/2)] 2 (by decide)
    (by simp [List.Sorted])).2.2.2 (by decide) (by rfl) (by decide)

lemma clamp01_nonneg (x : ℚ) : 0 ≤ clamp01 x := le_max_left 0 _

lemma clamp01_le_one (x : ℚ) : clamp01 x ≤ 1 :=
  max_le (by norm_num) (min_le_left 1 x)

lemma clamp01_mono {a b : ℚ} (h : a ≤ b) : clamp01 a ≤ clamp01 b :=
  max_le_max (le_refl 0) (min_le_min (le_refl 1) h)

lemma missRatioAt_zero (s : CStats) (apc : Nat) : missRatioAt s apc 0 = 1 := by
  simp [missRatioAt]

lemma missRatioAt_nonneg (s : CStats) (apc sc : Nat) : 0 ≤ missRatioAt s apc sc := by
  unfold missRatioAt
  split
  · exact clamp01_nonneg _
  · norm_num

lemma missRatioAt_le_one (s : CStats) (apc sc : Nat) : missRatioAt s apc sc ≤ 1 := by
  unfold missRatioAt
  split
  · exact clamp01_le_one _
  · norm_num

lemma hitCnt_mono (s : CStats) (cs1 cs2 : Nat) (h : cs1 ≤ cs2) :
    hitCnt s cs1 ≤ hitCnt s cs2 := by
  unfold hitCnt
  apply List.countP_mono_left
  intro t _ hp
  have h1 : fpAt s t < ((cs1 : ℚ)) := of_decide_eq_true hp
  have h2 : ((cs1 : ℚ)) ≤ ((cs2 : ℚ)) := by exact_mod_cast h
  exact decide_eq_true (lt_of_lt_of_le h1 h2)

lemma missRatioAt_anti (s : CStats) (apc : Nat) (s1 s2 : Nat) (h : s1 ≤ s2) :
    missRatioAt s apc s2 ≤ missRatioAt s apc s1 := by
  by_cases hc2 : s.n ≠ 0 ∧ s2 * apc ≠ 0
  · by_cases hc1 : s.n ≠ 0 ∧ s1 * apc ≠ 0
    · have e1 : missRatioAt s apc s1 =
          clamp01 (1 - ((hitCnt s (s1 * apc) : ℚ)) / ((s.n : ℚ))) := by
        rw [missRatioAt, if_pos hc1]
      have e2 : missRatioAt s apc s2 =
          clamp01 (1 - ((hitCnt s (s2 * apc) : ℚ)) / ((s.n : ℚ))) := by
        rw [missRatioAt, if_pos hc2]
      rw [e1, e2]
      apply clamp01_mono
      have hmono : ((hitCnt s (s1 * apc) : ℚ)) ≤ ((hitCnt s (s2 * apc) : ℚ)) := by
        exact_mod_cast hitCnt_mono s (s1 * apc) (s2 * apc) (Nat.mul_le_mul_right apc h)
      have hn : (0 : ℚ) < ((s.n : ℚ)) := by
        have : 0 < s.n := Nat.pos_of_ne_zero hc1.1
        exact_mod_cast this
      have hdiv : ((hitCnt s (s1 * apc) : ℚ)) / ((s.n : ℚ)) ≤
          ((hitCnt s (s2 * apc) : ℚ)) / ((s.n : ℚ)) := by
        gcongr
      linarith
    · have e1 : missRatioAt s apc s1 = 1 := by
        rw [missRatioAt, if_neg hc1]
      rw [e1]
      exact missRatioAt_le_one s apc s2
  · have hc1 : ¬ (s.n ≠ 0 ∧ s1 * apc ≠ 0) := by
      intro hx
      apply hc2
      refine ⟨hx.1, ?_⟩
      have := hx.2
      have hle := Nat.mul_le_mul_right apc h
      omega
    have e1 : missRatioAt s apc s1 = 1 := by
      rw [missRatioAt, if_neg hc1]
    have e2 : missRatioAt s apc s2 = 1 := by
      rw [missRatioAt, if_neg hc2]
    rw [e1, e2]

lemma alookup_range_map {α : Type} (len : Nat) (f : Nat → α) (s : Nat) :
    alookup ((List.range len).map (fun i => (i, f i))) s =
      if s < len then some (f s) else none := by
  induction len with
  | zero => simp [alookup]
  | succ n ih =>
      rw [List.range_succ, List.map_append, alookup_append, ih]
      by_cases h : s < n
      · rw [if_pos h, if_pos (by omega)]
        rfl
      · rw [if_neg h, Option.none_or]
        simp only [List.map_cons, List.map_nil]
        by_cases he : n = s
        · rw [alookup, if_pos he, if_pos (by omega), he]
        · rw [alookup, if_neg he]
          rw [if_neg (by omega)]
          rfl

/-- Inversion of membership in the `queryMrc` result map. -/
lemma queryMrc_mem_inv {trace : List Rec} {apcMap : List (ClassId × Nat)}
    {maxSlabs : Nat} {c : ClassId} {e : MrcEntry}
    (hmem : (c, e) ∈ queryMrcMap trace apcMap maxSlabs) :
    ∃ apc, (c, apc) ∈ apcMap ∧ apc ≠ 0 ∧ subtrace c trace ≠ [] ∧ trace ≠ [] ∧
      e = mkEntry (subtrace c trace) apc maxSlabs := by
  unfold queryMrcMap at hmem
  by_cases ht : trace.isEmpty
  · rw [if_pos ht] at hmem
    simp at hmem
  · rw [if_neg ht] at hmem
    rcases List.mem_filterMap.mp hmem with ⟨p, hp, hfp⟩
    by_cases h2 : p.2 = 0
    · rw [if_pos h2] at hfp
      exact absurd hfp (by simp)
    · rw [if_neg h2] at hfp
      by_cases h3 : (subtrace p.1 trace).isEmpty
      · rw [if_pos h3] at hfp
        exact absurd hfp (by simp)
      · rw [if_neg h3] at hfp
        have hpe := Option.some.inj hfp
        have hc : p.1 = c := congrArg Prod.fst hpe
        have he : mkEntry (subtrace p.1 trace) p.2 maxSlabs = e := congrArg Prod.snd hpe
        refine ⟨p.2, ?_, h2, ?_, ?_, ?_⟩
        · rw [← hc]
          exact hp
        · rw [← hc]
          intro hx
          rw [hx] at h3
          exact h3 rfl
        · intro hx
          rw [hx] at ht
          exact ht rfl
        · rw [← he, hc]

/-- C4: every class entry returned by `queryMrc(allocsPerSlab, maxSlabs)` has
`mrcPoints` with value exactly 1.0 at slab count 0, all values in `[0, 1]`,
and values monotone non-increasing in the slab count over `[0, maxSlabs]`. -/
theorem claim4_mrc_shape (trace : List Rec) (apcMap : List (ClassId × Nat))
    (maxSlabs : Nat) (c : ClassId) (e : MrcEntry)
    (hmem : (c, e) ∈ queryMrcMap trace apcMap maxSlabs) :
    alookup e.points 0 = some 1 ∧
    (∀ sc v, alookup e.points sc = some v → 0 ≤ v ∧ v ≤ 1) ∧
    (∀ s1 s2 v1 v2, s1 ≤ s2 → alookup e.points s1 = some v1 →
      alookup e.points s2 = some v2 → v2 ≤ v1) := by
  rcases queryMrc_mem_inv hmem with ⟨apc, _, _, _, _, he⟩
  subst he
  set st := classStats (subtrace c trace) with hst
  have hpts : ∀ sc, alookup (mkEntry (subtrace c trace) apc maxSlabs).points sc =
      if sc < maxSlabs + 1 then some (missRatioAt st apc sc) else none := by
    intro sc
    exact alookup_range_map (maxSlabs + 1) (fun i => missRatioAt st apc i) sc
  refine ⟨?_, ?_, ?_⟩
  · rw [hpts 0, if_pos (by omega), missRatioAt_zero]
  · intro sc v hv
    rw [hpts sc] at hv
    by_cases h : sc < maxSlabs + 1
    · rw [if_pos h] at hv
      have := Option.some.inj hv
      rw [← this]
      exact ⟨missRatioAt_nonneg _ _ _, missRatioAt_le_one _ _ _⟩
    · rw [if_neg h] at hv
      exact absurd hv (by simp)
  · intro s1 s2 v1 v2 h12 hv1 hv2
    rw [hpts s1] at hv1
    rw [hpts s2] at hv2
    by_cases h1 : s1 < maxSlabs + 1
    · by_cases h2 : s2 < maxSlabs + 1
      · rw [if_pos h1] at hv1
        rw [if_pos h2] at hv2
        rw [← Option.some.inj hv1, ← Option.some.inj hv2]
        exact missRatioAt_anti st apc s1 s2 h12
      · rw [if_neg h2] at hv2
        exact absurd hv2 (by simp)
    · rw [if_neg h1] at hv1
      exact absurd hv1 (by simp)

/-- C4 witness: two accesses to key 1 in class 0, one slab profiled. -/
theorem claim4_mrc_shape_witness :
    alookup (mkEntry (subtrace 0 [(1, 0), (1, 0)]) 1 1).points 0 = some 1 :=
  (claim4_mrc_shape [(1, 0), (1, 0)] [(0, 1)] 1 0
    (mkEntry (subtrace 0 [(1, 0), (1, 0)]) 1 1)
    (by
      rw [show queryMrcMap [(1, 0), (1, 0)] [(0, 1)] 1 =
        [(0, mkEntry (subtrace 0 [(1, 0), (1, 0)]) 1 1)] from rfl]
      exact List.mem_singleton.mpr rfl)).1

lemma queryMrc_keys_sublist (trace : List Rec) (apcMap : List (ClassId × Nat))
    (maxSlabs : Nat) :
    ((queryMrcMap trace apcMap maxSlabs).map Prod.fst).Sublist (apcMap.map Prod.fst) := by
  unfold queryMrcMap
  by_cases ht : trace.isEmpty
  · rw [if_pos ht]
    simp
  · rw [if_neg ht]
    induction apcMap with
    | nil => simp
    | cons p rest ih =>
        cases hfa : (if p.2 = 0 then none
            else if (subtrace p.1 trace).isEmpty then none
            else some (p.1, mkEntry (subtrace p.1 trace) p.2 maxSlabs)) with
        | none =>
            rw [List.filterMap_cons, hfa]
            simp only [List.map_cons]
            exact ih.cons _
        | some q =>
            rw [List.filterMap_cons, hfa]
            have hq : q.1 = p.1 := by
              by_cases h2 : p.2 = 0
              · rw [if_pos h2] at hfa
                exact absurd hfa (by simp)
              · rw [if_neg h2] at hfa
                by_cases h3 : (subtrace p.1 trace).isEmpty
                · rw [if_pos h3] at hfa
                  exact absurd hfa (by simp)
                · rw [if_neg h3] at hfa
                  exact (congrArg Prod.fst (Option.some.inj hfa)).symm
            simp only [List.map_cons, hq]
            exact ih.cons₂ _

lemma queryMrc_keys_mem (trace : List Rec) (apcMap : List (ClassId × Nat))
    (maxSlabs : Nat) (c : ClassId) :
    c ∈ (queryMrcMap trace apcMap maxSlabs).map Prod.fst ↔
      ((∃ apc, (c, apc) ∈ apcMap ∧ apc ≠ 0) ∧ subtrace c trace ≠ [] ∧ trace ≠ []) := by
  constructor
  · intro hc
    rcases List.mem_map.mp hc with ⟨⟨c2, e⟩, hmem, hfst⟩
    simp only at hfst
    subst hfst
    rcases queryMrc_mem_inv hmem with ⟨apc, h1, h2, h3, h4, _⟩
    exact ⟨⟨apc, h1, h2⟩, h3, h4⟩
  · rintro ⟨⟨apc, hmem, hapc⟩, hsub, htr⟩
    apply List.mem_map.mpr
    refine ⟨(c, mkEntry (subtrace c trace) apc maxSlabs), ?_, rfl⟩
    unfold queryMrcMap
    rw [if_neg (by
      intro hx
      exact htr (List.isEmpty_iff.mp hx))]
    apply List.mem_filterMap.mpr
    refine ⟨(c, apc), hmem, ?_⟩
    dsimp only
    rw [if_neg hapc]
    rw [if_neg (by
      intro hx
      exact hsub (List.isEmpty_iff.mp hx))]

/-- C7: `queryMrc` returns one entry exactly for each class present both in
the window and in `allocsPerSlab` with a non-zero value (keys strictly sorted,
hence unique); classes with zero `allocsPerSlab` or absent from the window
yield no entry, an empty window yields the empty map, and every returned
`mrcPoints` has an entry for every slab count in `[0, maxSlabs]`. -/
theorem claim7_querymrc_domain (trace : List Rec) (apcMap : List (ClassId × Nat))
    (maxSlabs : Nat) (hsorted : (apcMap.map Prod.fst).Sorted (· < ·)) :
    (trace = [] → queryMrcMap trace apcMap maxSlabs = []) ∧
    ((queryMrcMap trace apcMap maxSlabs).map Prod.fst).Sorted (· < ·) ∧
    (∀ c, c ∈ (queryMrcMap trace apcMap maxSlabs).map Prod.fst ↔
      ((∃ apc, (c, apc) ∈ apcMap ∧ apc ≠ 0) ∧ subtrace c trace ≠ [] ∧ trace ≠ [])) ∧
    (∀ c e, (c, e) ∈ queryMrcMap trace apcMap maxSlabs →
      ∀ sc, sc ≤ maxSlabs → (alookup e.points sc).isSome = true) := by
  refine ⟨?_, ?_, queryMrc_keys_mem trace apcMap maxSlabs, ?_⟩
  · intro ht
    subst ht
    rfl
  · exact List.Pairwise.sublist (queryMrc_keys_sublist trace apcMap maxSlabs) hsorted
  · intro c e hmem sc hsc
    rcases queryMrc_mem_inv hmem with ⟨apc, _, _, _, _, he⟩
    subst he
    have := alookup_range_map (maxSlabs + 1)
      (fun i => missRatioAt (classStats (subtrace c trace)) apc i) sc
    rw [show (mkEntry (subtrace c trace) apc maxSlabs).points =
      (List.range (maxSlabs + 1)).map
        (fun i => (i, missRatioAt (classStats (subtrace c trace)) apc i)) from rfl]
    rw [this, if_pos (by omega)]
    rfl

/-- C7 witness: window `[(1, class 0)]`, allocs `{0 ↦ 2, 1 ↦ 0}`, queried at
class 0. -/
theorem claim7_querymrc_domain_witness :
    0 ∈ (queryMrcMap [(1, 0)] [(0, 2), (1, 0)] 2).map Prod.fst ↔
      ((∃ apc, ((0 : ClassId), apc) ∈ [(0, 2), (1, 0)] ∧ apc ≠ 0) ∧
        subtrace 0 [(1, 0)] ≠ [] ∧ ([(1, 0)] : List Rec) ≠ []) :=
  (claim7_querymrc_domain [(1, 0)] [(0, 2), (1, 0)] 2
    (by simp [List.Sorted])).2.2.1 0

/-- Result tuple of `solveSlabReallocation`. -/
structure SolveResult where
  mrOld : ℚ
  mrNew : ℚ
  optimalAllocation : List (ClassId × Nat)
  plan : List (ClassId × ClassId)
  accessFrequencies : List (ClassId × Nat)
  deriving Repr, DecidableEq

/-- Total slab count of an allocation map. -/
def sumVals (l : List (ClassId × Nat)) : Nat := (l.map Prod.snd).sum

/-- Access frequency of a class in the MRC query result (`std::get<2>`). -/
def freqOf (mrcData : List (ClassId × MrcEntry)) (c : ClassId) : Nat :=
  match alookup mrcData c with
  | some e => e.n
  | none => 0

/-- The points map of a class in the MRC query result (`std::get<0>`). -/
def ptsOf (mrcData : List (ClassId × MrcEntry)) (c : ClassId) : List (Nat × ℚ) :=
  match alookup mrcData c with
  | some e => e.points
  | none => []

/-- One iteration of the inner DP minimisation: consider giving `k` slabs to
the current class; skip unreachable predecessor states (`infinity` is `none`),
keep the strictly better candidate (ties keep the earlier, smaller `k`). -/
def dpStep (prev : Nat → Option ℚ) (ci : Nat → ℚ) (j : Nat)
    (acc : Option ℚ × Nat) (k : Nat) : Option ℚ × Nat :=
  match prev (j - k) with
  | none => acc
  | some v =>
      match acc.1 with
      | none => (some (v + ci k), k)
      | some b => if v + ci k < b then (some (v + ci k), k) else acc

/-- The inner loop `for k in [0, kmax]` computing `F[i][j]` and `B[i][j]`. -/
def dpInner (prev : Nat → Option ℚ) (ci : Nat → ℚ) (j kmax : Nat) : Option ℚ × Nat :=
  (List.range (kmax + 1)).foldl (dpStep prev ci j) (none, 0)

/-- The DP tables `F` (column 1, `none` = infinity) and `B` (column 2) of the
knapsack over class index `i` and slab budget `j`. -/
def dpTable (cost : Nat → Nat → ℚ) (bprof : Nat) : Nat → Nat → Option ℚ × Nat
  | 0, j => (if j = 0 then some 0 else none, 0)
  | i + 1, j => dpInner (fun j2 => (dpTable cost bprof i j2).1) (cost i) j (min j bprof)

/-- Backtracking walk of the `B` table from `(i, rem)` down to row 0; the
element at position `i2` of the result is the slab count assigned to the class
with index `i2`. -/
def optSlabs (tbl : Nat → Nat → Option ℚ × Nat) : Nat → Nat → List Nat
  | 0, _ => []
  | i + 1, rem =>
      optSlabs tbl i (rem - (tbl (i + 1) rem).2) ++ [(tbl (i + 1) rem).2]

/-- Cost of an assignment starting at class index `i`. -/
def costSumFrom (cost : Nat → Nat → ℚ) : Nat → List Nat → ℚ
  | _, [] => 0
  | i, k :: ks => cost i k + costSumFrom cost (i + 1) ks

/-- Cost of an assignment: `Σ_i cost i ks[i]`. -/
def costSum (cost : Nat → Nat → ℚ) (ks : List Nat) : ℚ :=
  costSumFrom cost 0 ks

/-- The sorted class id list of the solver (`classIds` after `std::sort`). -/
def solveCls (mrcData : List (ClassId × MrcEntry)) : List ClassId :=
  List.insertionSort (· ≤ ·) (mrcData.map Prod.fst)

/-- The solver's cost table entry `cost[i][k] = n_i * missRatio_i(min(k, B))`. -/
def solveCost (mrcData : List (ClassId × MrcEntry)) (bmax : Nat) (i k : Nat) : ℚ :=
  ((freqOf mrcData ((solveCls mrcData).getD i 0) : ℚ)) *
    getMissRatioAt (ptsOf mrcData ((solveCls mrcData).getD i 0)) (min k bmax)

/-- Per-class slab counts reconstructed from the DP backtrack, aligned with
`solveCls`. -/
def solveKs (mrcData : List (ClassId × MrcEntry)) (bmax : Nat) : List Nat :=
  optSlabs (dpTable (solveCost mrcData bmax) bmax) (solveCls mrcData).length bmax

/-- The `std::set` union of the MRC-view classes and the classes of the
current allocation, iterated in ascending order. -/
def allRelevantOf (mrcData : List (ClassId × MrcEntry))
    (current : List (ClassId × Nat)) : List ClassId :=
  List.insertionSort (· ≤ ·) ((solveCls mrcData ++ current.map Prod.fst).dedup)

/-- Optimal slab count of a class: its backtracked count if it is in the MRC
view, otherwise the zero-fill for the remaining relevant classes. -/
def solveOptOf (mrcData : List (ClassId × MrcEntry)) (bmax : Nat) (c : ClassId) : Nat :=
  (alookup ((solveCls mrcData).zip (solveKs mrcData bmax)) c).getD 0

/-- The full `optimalAllocation` map over all relevant classes. -/
def solveOptAlloc (mrcData : List (ClassId × MrcEntry))
    (current : List (ClassId × Nat)) (bmax : Nat) : List (ClassId × Nat) :=
  (allRelevantOf mrcData current).map (fun c => (c, solveOptOf mrcData bmax c))

/-- Total expected misses of an allocation map: classes absent from the MRC
view contribute zero. -/
def classMisses (mrcData : List (ClassId × MrcEntry))
    (alloc : List (ClassId × Nat)) : ℚ :=
  (alloc.map (fun p =>
    match alookup mrcData p.1 with
    | some e => ((e.n : ℚ)) * getMissRatioAt e.points p.2
    | none => 0)).sum

/-- The `accessFrequencies` output map. -/
def solveFreqs (mrcData : List (ClassId × MrcEntry)) : List (ClassId × Nat) :=
  (solveCls mrcData).map (fun c => (c, freqOf mrcData c))

/-- Total requests in the window over the MRC-view classes. -/
def solveTotalReq (mrcData : List (ClassId × MrcEntry)) : Nat :=
  sumVals (solveFreqs mrcData)

/-- The victim multiset: one entry per slab a class must give up, in
ascending class order before sorting by pressure. -/
def solveVictims (mrcData : List (ClassId × MrcEntry))
    (current : List (ClassId × Nat)) (bmax : Nat) : List ClassId :=
  (allRelevantOf mrcData current).flatMap
    (fun c => List.replicate ((alookup current c).getD 0 - solveOptOf mrcData bmax c) c)

/-- The receiver multiset: one entry per slab a class gains, in ascending
class order. -/
def solveReceivers (mrcData : List (ClassId × MrcEntry))
    (current : List (ClassId × Nat)) (bmax : Nat) : List ClassId :=
  (allRelevantOf mrcData current).flatMap
    (fun c => List.replicate (solveOptOf mrcData bmax c - (alookup current c).getD 0) c)

/-- Access-per-slab pressure of a class: `n_c / current[c]`, or the maximal
value when the class misses its frequency, its current allocation, or has a
zero current allocation. -/
def score (accessFreqs current : List (ClassId × Nat)) (c : ClassId) : WithTop ℚ :=
  match alookup accessFreqs c, alookup current c with
  | some f, some cur =>
      if cur ≠ 0 then (((f : ℚ)) / ((cur : ℚ)) : ℚ) else ⊤
  | _, _ => ⊤

/-- Comparator ordering victims by ascending pressure. -/
def scoreLe (accessFreqs current : List (ClassId × Nat)) (a b : ClassId) : Prop :=
  score accessFreqs current a ≤ score accessFreqs current b

instance scoreLeDec (af cur : List (ClassId × Nat)) : DecidableRel (scoreLe af cur) :=
  fun a b => inferInstanceAs (Decidable (score af cur a ≤ score af cur b))

/-- The emitted reassignment plan: victims sorted by ascending pressure,
paired positionally with the receivers (`zip` truncates to the shorter list,
as the `min(size, size)` loop does). -/
def solvePlan (mrcData : List (ClassId × MrcEntry))
    (current : List (ClassId × Nat)) (bmax : Nat) : List (ClassId × ClassId) :=
  (List.insertionSort (scoreLe (solveFreqs mrcData) current)
      (solveVictims mrcData current bmax)).zip
    (solveReceivers mrcData current bmax)

/-- The zero tuple returned on degenerate inputs. -/
def zeroSolve : SolveResult := ⟨0, 0, [], [], []⟩

/-- The non-degenerate branch of `solveSlabReallocation`. -/
def solveCore (trace : List Rec) (apcMap current : List (ClassId × Nat)) : SolveResult :=
  { mrOld := if solveTotalReq (queryMrcMap trace apcMap (sumVals current)) ≠ 0 then
      classMisses (queryMrcMap trace apcMap (sumVals current)) current /
        ((solveTotalReq (queryMrcMap trace apcMap (sumVals current)) : ℚ))
    else 0
    mrNew := if solveTotalReq (queryMrcMap trace apcMap (sumVals current)) ≠ 0 then
      classMisses (queryMrcMap trace apcMap (sumVals current))
          (solveOptAlloc (queryMrcMap trace apcMap (sumVals current)) current
            (sumVals current)) /
        ((solveTotalReq (queryMrcMap trace apcMap (sumVals current)) : ℚ))
    else 0
    optimalAllocation := solveOptAlloc (queryMrcMap trace apcMap (sumVals current))
      current (sumVals current)
    plan := solvePlan (queryMrcMap trace apcMap (sumVals current)) current (sumVals current)
    accessFrequencies := solveFreqs (queryMrcMap trace apcMap (sumVals current)) }

/-- Embedding of `solveSlabReallocation`: the budget is the sum of the current
allocation; the MRC query, both degenerate early returns, and the DP portion
as assembled by `solveCore`. -/
def solve (trace : List Rec) (apcMap current : List (ClassId × Nat)) : SolveResult :=
  if (queryMrcMap trace apcMap (sumVals current)).isEmpty then zeroSolve
  else if sumVals current = 0 ∧ apcMap.isEmpty then zeroSolve
  else solveCore trace apcMap current

section DpLemmas

variable (prev : Nat → Option ℚ) (ci : Nat → ℚ) (j : Nat)

lemma dpStep_none (acc : Option ℚ × Nat) (k : Nat) (hp : prev (j - k) = none) :
    dpStep prev ci j acc k = acc := by
  simp [dpStep, hp]

lemma dpStep_some_none (a2 k : Nat) (v : ℚ) (hp : prev (j - k) = some v) :
    dpStep prev ci j (none, a2) k = (some (v + ci k), k) := by
  simp [dpStep, hp]

lemma dpStep_some_some (b : ℚ) (a2 k : Nat) (v : ℚ) (hp : prev (j - k) = some v) :
    dpStep prev ci j (some b, a2) k =
      (if v + ci k < b then (some (v + ci k), k) else (some b, a2)) := by
  simp only [dpStep, hp]

lemma dpFold_improve :
    ∀ (L : List Nat) (acc : Option ℚ × Nat) (b : ℚ), acc.1 = some b →
      ∃ b2, (L.foldl (dpStep prev ci j) acc).1 = some b2 ∧ b2 ≤ b
  | [], _, b, h => ⟨b, h, le_rfl⟩
  | k :: L, acc, b, h => by
      obtain ⟨a1, a2⟩ := acc
      simp only at h
      subst h
      rw [List.foldl_cons]
      cases hp : prev (j - k) with
      | none =>
          rw [dpStep_none prev ci j _ k hp]
          exact dpFold_improve L _ b rfl
      | some v =>
          rw [dpStep_some_some prev ci j b a2 k v hp]
          by_cases hlt : v + ci k < b
          · rw [if_pos hlt]
            obtain ⟨b2, h2, hle⟩ := dpFold_improve L (some (v + ci k), k) (v + ci k) rfl
            exact ⟨b2, h2, le_trans hle (le_of_lt hlt)⟩
          · rw [if_neg hlt]
            exact dpFold_improve L _ b rfl

lemma dpFold_cand :
    ∀ (L : List Nat) (acc : Option ℚ × Nat) (k : Nat), k ∈ L →
      ∀ v, prev (j - k) = some v →
      ∃ b2, (L.foldl (dpStep prev ci j) acc).1 = some b2 ∧ b2 ≤ v + ci k
  | [], _, k, hk, _, _ => absurd hk (List.not_mem_nil k)
  | k0 :: L, acc, k, hk, v, hv => by
      obtain ⟨a1, a2⟩ := acc
      rw [List.foldl_cons]
      rcases List.mem_cons.mp hk with rfl | hm
      · cases a1 with
        | none =>
            rw [dpStep_some_none prev ci j a2 k v hv]
            obtain ⟨b2, h2, hle⟩ := dpFold_improve prev ci j L (some (v + ci k), k)
              (v + ci k) rfl
            exact ⟨b2, h2, hle⟩
        | some b =>
            rw [dpStep_some_some prev ci j b a2 k v hv]
            by_cases hlt : v + ci k < b
            · rw [if_pos hlt]
              obtain ⟨b2, h2, hle⟩ := dpFold_improve prev ci j L (some (v + ci k), k)
                (v + ci k) rfl
              exact ⟨b2, h2, hle⟩
            · rw [if_neg hlt]
              obtain ⟨b2, h2, hle⟩ := dpFold_improve prev ci j L (some b, a2) b rfl
              exact ⟨b2, h2, le_trans hle (not_lt.mp hlt)⟩
      · exact dpFold_cand L (dpStep prev ci j (a1, a2) k0) k hm v hv

lemma dpFold_good (Q : Nat → ℚ → Prop) :
    ∀ (L : List Nat) (acc : Option ℚ × Nat),
      (∀ k ∈ L, ∀ v, prev (j - k) = some v → Q k (v + ci k)) →
      (∀ b, acc.1 = some b → Q acc.2 b) →
      ∀ b, (L.foldl (dpStep prev ci j) acc).1 = some b →
        Q ((L.foldl (dpStep prev ci j) acc).2) b
  | [], _, _, hacc, b, hb => hacc b hb
  | k0 :: L, acc, hL, hacc, b, hb => by
      rw [List.foldl_cons] at hb ⊢
      refine dpFold_good Q L (dpStep prev ci j acc k0)
        (fun k hk => hL k (List.mem_cons.mpr (Or.inr hk))) ?_ b hb
      intro b2 hb2
      obtain ⟨a1, a2⟩ := acc
      cases hp : prev (j - k0) with
      | none =>
          rw [dpStep_none prev ci j _ k0 hp] at hb2 ⊢
          exact hacc b2 hb2
      | some v =>
          cases a1 with
          | none =>
              rw [dpStep_some_none prev ci j a2 k0 v hp] at hb2 ⊢
              simp only at hb2
              rw [← Option.some.inj hb2]
              exact hL k0 (List.mem_cons_self k0 L) v hp
          | some b0 =>
              rw [dpStep_some_some prev ci j b0 a2 k0 v hp] at hb2 ⊢
              by_cases hlt : v + ci k0 < b0
              · rw [if_pos hlt] at hb2 ⊢
                simp only at hb2
                rw [← Option.some.inj hb2]
                exact hL k0 (List.mem_cons_self k0 L) v hp
              · rw [if_neg hlt] at hb2 ⊢
                exact hacc b2 hb2

lemma dpFold_none_inv :
    ∀ (L : List Nat) (acc : Option ℚ × Nat),
      (L.foldl (dpStep prev ci j) acc).1 = none →
      acc.1 = none ∧ ∀ k ∈ L, prev (j - k) = none
  | [], _, h => ⟨h, by simp⟩
  | k0 :: L, acc, h => by
      rw [List.foldl_cons] at h
      have hrec := dpFold_none_inv L _ h
      obtain ⟨a1, a2⟩ := acc
      cases hp : prev (j - k0) with
      | none =>
          rw [dpStep_none prev ci j _ k0 hp] at hrec
          refine ⟨hrec.1, ?_⟩
          intro k hk
          rcases List.mem_cons.mp hk with rfl | hm
          · exact hp
          · exact hrec.2 k hm
      | some v =>
          exfalso
          cases a1 with
          | none =>
              rw [dpStep_some_none prev ci j a2 k0 v hp] at hrec
              exact Option.noConfusion hrec.1
          | some b0 =>
              rw [dpStep_some_some prev ci j b0 a2 k0 v hp] at hrec
              by_cases hlt : v + ci k0 < b0
              · rw [if_pos hlt] at hrec
                exact Option.noConfusion hrec.1
              · rw [if_neg hlt] at hrec
                exact Option.noConfusion hrec.1

lemma dpInner_some_inv (kmax : Nat) (b : ℚ)
    (hb : (dpInner prev ci j kmax).1 = some b) :
    (dpInner prev ci j kmax).2 ≤ kmax ∧
      ∃ v, prev (j - (dpInner prev ci j kmax).2) = some v ∧
        b = v + ci ((dpInner prev ci j kmax).2) := by
  have := dpFold_good prev ci j
    (fun k b2 => k ≤ kmax ∧ ∃ v, prev (j - k) = some v ∧ b2 = v + ci k)
    (List.range (kmax + 1)) (none, 0)
    (fun k hk v hv => ⟨by
        have := List.mem_range.mp hk
        omega, v, hv, rfl⟩)
    (fun b2 hb2 => Option.noConfusion hb2) b hb
  exact this

lemma dpInner_min (kmax : Nat) (b : ℚ)
    (hb : (dpInner prev ci j kmax).1 = some b) :
    ∀ k, k ≤ kmax → ∀ v, prev (j - k) = some v → b ≤ v + ci k := by
  intro k hk v hv
  obtain ⟨b2, h2, hle⟩ := dpFold_cand prev ci j (List.range (kmax + 1)) (none, 0) k
    (List.mem_range.mpr (by omega)) v hv
  rw [dpInner] at hb
  rw [hb] at h2
  rw [Option.some.inj h2]
  exact hle

lemma dpInner_isSome_of (kmax k : Nat) (hk : k ≤ kmax) (v : ℚ)
    (hv : prev (j - k) = some v) : ((dpInner prev ci j kmax).1).isSome = true := by
  obtain ⟨b2, h2, _⟩ := dpFold_cand prev ci j (List.range (kmax + 1)) (none, 0) k
    (List.mem_range.mpr (by omega)) v hv
  rw [dpInner, h2]
  rfl

end DpLemmas

section DpTableLemmas

variable (cost : Nat → Nat → ℚ) (bprof : Nat)

lemma costSumFrom_append (k : Nat) :
    ∀ (ks : List Nat) (i : Nat),
      costSumFrom cost i (ks ++ [k]) = costSumFrom cost i ks + cost (i + ks.length) k := by
  intro ks
  induction ks with
  | nil =>
      intro i
      simp [costSumFrom]
  | cons k0 ks ih =>
      intro i
      simp only [List.cons_append, costSumFrom, List.append_eq, ih (i + 1),
        List.length_cons]
      rw [show i + 1 + ks.length = i + (ks.length + 1) by omega]
      ring

lemma costSum_append (ks : List Nat) (k : Nat) :
    costSum cost (ks ++ [k]) = costSum cost ks + cost ks.length k := by
  rw [costSum, costSum, costSumFrom_append]
  simp

lemma dpTable_succ_def (i j2 : Nat) :
    dpTable cost bprof (i + 1) j2 =
      dpInner (fun j3 => (dpTable cost bprof i j3).1) (cost i) j2 (min j2 bprof) := rfl

lemma dp_reach :
    ∀ (ks : List Nat), (∀ k ∈ ks, k ≤ bprof) →
      ((dpTable cost bprof ks.length ks.sum).1).isSome = true := by
  intro ks
  induction ks using List.reverseRecOn with
  | nil => intro _; rfl
  | append_singleton ks k ih =>
      intro hb
      have hks : ∀ k2 ∈ ks, k2 ≤ bprof := fun k2 h2 =>
        hb k2 (List.mem_append.mpr (Or.inl h2))
      have hkb : k ≤ bprof := hb k (List.mem_append.mpr (Or.inr (List.mem_singleton.mpr rfl)))
      have hprev := ih hks
      rcases Option.isSome_iff_exists.mp hprev with ⟨v, hv⟩
      simp only [List.length_append, List.length_singleton, List.sum_append,
        List.sum_cons, List.sum_nil, Nat.add_zero]
      rw [dpTable_succ_def]
      apply dpInner_isSome_of _ _ _ _ k (by omega) v
      rw [show ks.sum + k - k = ks.sum by omega]
      exact hv

lemma dp_min :
    ∀ (ks : List Nat), (∀ k ∈ ks, k ≤ bprof) →
      ∀ b, (dpTable cost bprof ks.length ks.sum).1 = some b →
        b ≤ costSum cost ks := by
  intro ks
  induction ks using List.reverseRecOn with
  | nil =>
      intro _ b hb
      have : (0 : ℚ) = b := Option.some.inj hb
      rw [← this]
      exact le_refl _
  | append_singleton ks k ih =>
      intro hb b hsome
      have hks : ∀ k2 ∈ ks, k2 ≤ bprof := fun k2 h2 =>
        hb k2 (List.mem_append.mpr (Or.inl h2))
      have hkb : k ≤ bprof := hb k (List.mem_append.mpr (Or.inr (List.mem_singleton.mpr rfl)))
      rcases Option.isSome_iff_exists.mp (dp_reach cost bprof ks hks) with ⟨v, hv⟩
      simp only [List.length_append, List.length_singleton, List.sum_append,
        List.sum_cons, List.sum_nil, Nat.add_zero] at hsome
      rw [dpTable_succ_def] at hsome
      have hmin := dpInner_min _ _ _ _ b hsome k (by omega) v (by
        rw [show ks.sum + k - k = ks.sum by omega]
        exact hv)
      have hih := ih hks v hv
      rw [costSum_append]
      linarith

lemma dp_backtrack :
    ∀ (i j2 : Nat) (b : ℚ), (dpTable cost bprof i j2).1 = some b →
      (optSlabs (dpTable cost bprof) i j2).sum = j2 ∧
      (optSlabs (dpTable cost bprof) i j2).length = i ∧
      (∀ k ∈ optSlabs (dpTable cost bprof) i j2, k ≤ bprof) ∧
      b = costSum cost (optSlabs (dpTable cost bprof) i j2) := by
  intro i
  induction i with
  | zero =>
      intro j2 b hb
      simp only [dpTable] at hb
      by_cases hj : j2 = 0
      · rw [if_pos hj] at hb
        have hbv : (0 : ℚ) = b := Option.some.inj hb
        subst hj
        exact ⟨rfl, rfl, by simp [optSlabs], by rw [← hbv]; rfl⟩
      · rw [if_neg hj] at hb
        exact absurd hb (by simp)
  | succ i ih =>
      intro j2 b hb
      rw [dpTable_succ_def] at hb
      obtain ⟨hkle, v, hv, hbv⟩ := dpInner_some_inv _ _ _ _ b hb
      set kb := (dpInner (fun j3 => (dpTable cost bprof i j3).1) (cost i) j2
        (min j2 bprof)).2 with hkb
      have hkb2 : (dpTable cost bprof (i + 1) j2).2 = kb := by
        rw [dpTable_succ_def]
      have hopt : optSlabs (dpTable cost bprof) (i + 1) j2 =
          optSlabs (dpTable cost bprof) i (j2 - kb) ++ [kb] := by
        rw [optSlabs, hkb2]
      obtain ⟨hsum, hlen, hbnd, hcost⟩ := ih (j2 - kb) v hv
      refine ⟨?_, ?_, ?_, ?_⟩
      · rw [hopt]
        simp only [List.sum_append, List.sum_cons, List.sum_nil, Nat.add_zero, hsum]
        omega
      · rw [hopt]
        simp only [List.length_append, List.length_singleton, hlen]
      · rw [hopt]
        intro k hk
        rcases List.mem_append.mp hk with hm | hm
        · exact hbnd k hm
        · rw [List.mem_singleton.mp hm]
          omega
      · rw [hopt, costSum_append, hlen, ← hcost, hbv]

end DpTableLemmas

lemma dp_start_isSome (cost : Nat → Nat → ℚ) (bmax K : Nat) (hK : 1 ≤ K) :
    ((dpTable cost bmax K bmax).1).isSome = true := by
  have hlist : ∀ k ∈ (bmax :: List.replicate (K - 1) 0), k ≤ bmax := by
    intro k hk
    rcases List.mem_cons.mp hk with rfl | hm
    · exact le_refl _
    · rw [List.eq_of_mem_replicate hm]
      omega
  have := dp_reach cost bmax (bmax :: List.replicate (K - 1) 0) hlist
  have hlen : (bmax :: List.replicate (K - 1) 0).length = K := by
    simp
    omega
  have hsum : (bmax :: List.replicate (K - 1) 0).sum = bmax := by
    simp
  rw [hlen, hsum] at this
  exact this

lemma alookup_zip_keys (cls : List ClassId) (ks : List Nat)
    (hlen : cls.length = ks.length) :
    (cls.zip ks).map Prod.fst = cls :=
  List.map_fst_zip cls ks (by omega)

lemma zip_lookup_sum :
    ∀ (cls : List ClassId) (ks : List Nat), cls.Nodup → cls.length = ks.length →
      (cls.map (fun c => (alookup (cls.zip ks) c).getD 0)).sum = ks.sum
  | [], [], _, _ => rfl
  | [], k :: ks, _, hlen => by simp at hlen
  | c :: cls, [], _, hlen => by simp at hlen
  | c :: cls, k :: ks, hnd, hlen => by
      simp only [List.zip_cons_cons, List.map_cons, List.sum_cons]
      have hnd2 := List.nodup_cons.mp hnd
      have hlen2 : cls.length = ks.length := by
        simp only [List.length_cons] at hlen
        omega
      have hhead : (alookup ((c, k) :: cls.zip ks) c).getD 0 = k := by
        rw [alookup, if_pos rfl]
        rfl
      have htail : cls.map (fun c2 => (alookup ((c, k) :: cls.zip ks) c2).getD 0) =
          cls.map (fun c2 => (alookup (cls.zip ks) c2).getD 0) := by
        apply List.map_congr_left
        intro c2 hc2
        have hne : ¬ c = c2 := fun he => hnd2.1 (he ▸ hc2)
        rw [alookup, if_neg hne]
      rw [hhead, htail, zip_lookup_sum cls ks hnd2.2 hlen2]

lemma list_sum_eq_finset_sum {β : Type} [AddCommMonoid β] (l : List ClassId)
    (f : ClassId → β) (hl : l.Nodup) :
    (l.map f).sum = l.toFinset.sum f := by
  induction l with
  | nil => simp
  | cons c cls ih =>
      have hnd := List.nodup_cons.mp hl
      simp only [List.map_cons, List.sum_cons, List.toFinset_cons]
      rw [Finset.sum_insert (fun hm => hnd.1 (List.mem_toFinset.mp hm)), ih hnd.2]

/-- The union list of relevant classes: membership and uniqueness. -/
lemma allRelevant_spec (mrcData : List (ClassId × MrcEntry))
    (current : List (ClassId × Nat)) :
    (allRelevantOf mrcData current).Nodup ∧
      (∀ c, c ∈ allRelevantOf mrcData current ↔
        c ∈ solveCls mrcData ∨ c ∈ current.map Prod.fst) := by
  constructor
  · have hperm := List.perm_insertionSort (fun a b : ClassId => a ≤ b)
      ((solveCls mrcData ++ current.map Prod.fst).dedup)
    exact hperm.nodup_iff.mpr (List.nodup_dedup _)
  · intro c
    rw [allRelevantOf, List.mem_insertionSort, List.mem_dedup, List.mem_append]

lemma solveCls_subset_allRelevant (mrcData : List (ClassId × MrcEntry))
    (current : List (ClassId × Nat)) (c : ClassId) (hc : c ∈ solveCls mrcData) :
    c ∈ allRelevantOf mrcData current :=
  ((allRelevant_spec mrcData current).2 c).mpr (Or.inl hc)

/-- Core facts about the backtracked slab counts, provided the MRC view is
nonempty and its class keys are unique. -/
lemma solveKs_spec (mrcData : List (ClassId × MrcEntry)) (bmax : Nat)
    (hne : mrcData ≠ []) :
    (solveKs mrcData bmax).sum = bmax ∧
      (solveKs mrcData bmax).length = (solveCls mrcData).length ∧
      (∀ k ∈ solveKs mrcData bmax, k ≤ bmax) ∧
      ∃ b, (dpTable (solveCost mrcData bmax) bmax
          (solveCls mrcData).length bmax).1 = some b ∧
        b = costSum (solveCost mrcData bmax) (solveKs mrcData bmax) := by
  have hK : 1 ≤ (solveCls mrcData).length := by
    rw [solveCls, List.length_insertionSort, List.length_map]
    cases mrcData
    · exact absurd rfl hne
    · simp
  have hsome := dp_start_isSome (solveCost mrcData bmax) bmax
    (solveCls mrcData).length hK
  rcases Option.isSome_iff_exists.mp hsome with ⟨b, hb⟩
  obtain ⟨hsum, hlen, hbnd, hcost⟩ :=
    dp_backtrack (solveCost mrcData bmax) bmax (solveCls mrcData).length bmax b hb
  exact ⟨hsum, hlen, hbnd, b, hb, hcost⟩

lemma solveCls_nodup (trace : List Rec) (apcMap : List (ClassId × Nat)) (bmax : Nat)
    (hsa : (apcMap.map Prod.fst).Sorted (· < ·)) :
    (solveCls (queryMrcMap trace apcMap bmax)).Nodup := by
  have hsorted := List.Pairwise.sublist (queryMrc_keys_sublist trace apcMap bmax) hsa
  have hnd : ((queryMrcMap trace apcMap bmax).map Prod.fst).Nodup :=
    hsorted.imp (fun h => Nat.ne_of_lt h)
  exact (List.perm_insertionSort _ _).nodup_iff.mpr hnd

/-- Sum of the zero-filled optimal allocation over all relevant classes equals
the sum of the backtracked slab counts. -/
lemma solveOptAlloc_sum (mrcData : List (ClassId × MrcEntry))
    (current : List (ClassId × Nat)) (bmax : Nat)
    (hnd : (solveCls mrcData).Nodup)
    (hlen : (solveCls mrcData).length = (solveKs mrcData bmax).length) :
    sumVals (solveOptAlloc mrcData current bmax) = (solveKs mrcData bmax).sum := by
  have hAR := allRelevant_spec mrcData current
  have hf : sumVals (solveOptAlloc mrcData current bmax) =
      ((allRelevantOf mrcData current).map (fun c => solveOptOf mrcData bmax c)).sum := by
    rw [sumVals, solveOptAlloc, List.map_map]
    rfl
  rw [hf]
  rw [list_sum_eq_finset_sum _ _ hAR.1]
  have hzip_keys : ((solveCls mrcData).zip (solveKs mrcData bmax)).map Prod.fst =
      solveCls mrcData := alookup_zip_keys _ _ hlen
  have hzero : ∀ c ∈ (allRelevantOf mrcData current).toFinset,
      c ∉ (solveCls mrcData).toFinset → solveOptOf mrcData bmax c = 0 := by
    intro c _ hc
    rw [solveOptOf]
    have : alookup ((solveCls mrcData).zip (solveKs mrcData bmax)) c = none := by
      rw [alookup_eq_none, hzip_keys]
      exact fun hm => hc (List.mem_toFinset.mpr hm)
    rw [this]
    rfl
  have hsub : (solveCls mrcData).toFinset ⊆ (allRelevantOf mrcData current).toFinset := by
    intro c hc
    exact List.mem_toFinset.mpr
      (solveCls_subset_allRelevant mrcData current c (List.mem_toFinset.mp hc))
  rw [← Finset.sum_subset hsub hzero]
  rw [← list_sum_eq_finset_sum _ _ hnd]
  exact zip_lookup_sum (solveCls mrcData) (solveKs mrcData bmax) hnd hlen

/-- When the MRC view is nonempty, neither degenerate early return fires. -/
lemma solve_eq_core (trace : List Rec) (apcMap current : List (ClassId × Nat))
    (hne : queryMrcMap trace apcMap (sumVals current) ≠ []) :
    solve trace apcMap current = solveCore trace apcMap current := by
  have h1 : ¬ ((queryMrcMap trace apcMap (sumVals current)).isEmpty = true) := by
    rw [List.isEmpty_iff]
    exact hne
  have h2 : ¬ (sumVals current = 0 ∧ apcMap.isEmpty = true) := by
    rintro ⟨_, hemp⟩
    obtain ⟨p, hp⟩ := List.exists_mem_of_ne_nil _ hne
    obtain ⟨c2, e⟩ := p
    rcases queryMrc_mem_inv hp with ⟨apc, hmem, _, _, _, _⟩
    rw [List.isEmpty_iff] at hemp
    rw [hemp] at hmem
    exact absurd hmem (List.not_mem_nil _)
  rw [solve, if_neg h1, if_neg h2]

/-- C1: whenever the internal MRC query is non-empty, the optimal allocation
returned by `solveSlabReallocation` conserves the slab budget (its values sum
to the sum of the current allocation) and contains an entry (possibly 0) for
every class in the union of the MRC view and the current allocation. -/
theorem claim1_budget (trace : List Rec) (apcMap current : List (ClassId × Nat))
    (hsa : (apcMap.map Prod.fst).Sorted (· < ·))
    (hne : queryMrcMap trace apcMap (sumVals current) ≠ []) :
    sumVals (solve trace apcMap current).optimalAllocation = sumVals current ∧
    ∀ c, (c ∈ (queryMrcMap trace apcMap (sumVals current)).map Prod.fst ∨
        c ∈ current.map Prod.fst) →
      (alookup (solve trace apcMap current).optimalAllocation c).isSome = true := by
  have hsolve := solve_eq_core trace apcMap current hne
  obtain ⟨hsum, hlen, hbnd, b, hb, hcost⟩ :=
    solveKs_spec (queryMrcMap trace apcMap (sumVals current)) (sumVals current) hne
  have hnd := solveCls_nodup trace apcMap (sumVals current) hsa
  constructor
  · rw [hsolve]
    show sumVals (solveOptAlloc (queryMrcMap trace apcMap (sumVals current))
      current (sumVals current)) = sumVals current
    rw [solveOptAlloc_sum _ current (sumVals current) hnd hlen.symm, hsum]
  · intro c hc
    rw [hsolve]
    show (alookup (solveOptAlloc (queryMrcMap trace apcMap (sumVals current))
      current (sumVals current)) c).isSome = true
    rw [alookup_isSome_iff]
    have hkeys : (solveOptAlloc (queryMrcMap trace apcMap (sumVals current))
        current (sumVals current)).map Prod.fst =
        allRelevantOf (queryMrcMap trace apcMap (sumVals current)) current := by
      rw [solveOptAlloc, List.map_map]
      rw [show (Prod.fst ∘ fun c2 => (c2, solveOptOf
        (queryMrcMap trace apcMap (sumVals current)) (sumVals current) c2)) = id from rfl]
      rw [List.map_id]
    rw [hkeys]
    apply ((allRelevant_spec _ current).2 c).mpr
    rcases hc with hc | hc
    · left
      rw [solveCls, List.mem_insertionSort]
      exact hc
    · right
      exact hc

/-- C1 witness: three distinct keys of class 0, allocs `{0 ↦ 1}`, current
allocation `{1 ↦ 5}`. -/
theorem claim1_budget_witness :
    sumVals (solve [(1, 0), (2, 0), (3, 0)] [(0, 1)] [(1, 5)]).optimalAllocation =
      sumVals [(1, 5)] :=
  (claim1_budget [(1, 0), (2, 0), (3, 0)] [(0, 1)] [(1, 5)]
    (by simp [List.Sorted])
    (by
      rw [show queryMrcMap [(1, 0), (2, 0), (3, 0)] [(0, 1)] (sumVals [(1, 5)]) =
        [(0, mkEntry (subtrace 0 [(1, 0), (2, 0), (3, 0)]) 1 5)] from rfl]
      exact List.cons_ne_nil _ _)).1

lemma zip_map_fst {α β : Type} :
    ∀ (l : List α) (m : List β), (l.zip m).map Prod.fst = l.take ((l.zip m).length)
  | [], _ => rfl
  | _ :: _, [] => rfl
  | a :: l, b :: m => by
      simp only [List.zip_cons_cons, List.map_cons, List.length_cons, List.take_succ_cons]
      rw [zip_map_fst l m]

lemma zip_map_snd {α β : Type} :
    ∀ (l : List α) (m : List β), (l.zip m).map Prod.snd = m.take ((l.zip m).length)
  | [], _ => rfl
  | _ :: _, [] => rfl
  | a :: l, b :: m => by
      simp only [List.zip_cons_cons, List.map_cons, List.length_cons, List.take_succ_cons]
      rw [zip_map_snd l m]

lemma sorted_flatMap_replicate (f : ClassId → Nat) :
    ∀ (l : List ClassId), l.Sorted (· ≤ ·) →
      (l.flatMap (fun x => List.replicate (f x) x)).Sorted (· ≤ ·)
  | [], _ => by simp [List.Sorted]
  | c :: l, hs => by
      rw [List.flatMap_cons]
      rw [List.Sorted, List.pairwise_append]
      refine ⟨?_, sorted_flatMap_replicate f l (List.sorted_cons.mp hs).2, ?_⟩
      · exact List.pairwise_replicate.mpr (Or.inr (le_refl c))
      · intro a ha b hb
        have hac : a = c := List.eq_of_mem_replicate ha
        rcases List.mem_flatMap.mp hb with ⟨x, hx, hbx⟩
        have hbx2 : b = x := List.eq_of_mem_replicate hbx
        rw [hac, hbx2]
        exact (List.sorted_cons.mp hs).1 x hx

lemma count_flatMap_replicate (f : ClassId → Nat) :
    ∀ (l : List ClassId), l.Nodup → ∀ c,
      (l.flatMap (fun x => List.replicate (f x) x)).count c =
        if c ∈ l then f c else 0
  | [], _, c => by simp
  | x :: l, hnd, c => by
      rw [List.flatMap_cons, List.count_append]
      have hnd2 := List.nodup_cons.mp hnd
      have hrep : (List.replicate (f x) x).count c = if x = c then f x else 0 := by
        rw [List.count_replicate]
        simp only [beq_iff_eq]
      rw [hrep, count_flatMap_replicate f l hnd2.2 c]
      by_cases he : x = c
      · subst he
        rw [if_pos rfl, if_neg hnd2.1, if_pos (List.mem_cons_self x l)]
        omega
      · rw [if_neg he]
        by_cases hm : c ∈ l
        · rw [if_pos hm, if_pos (List.mem_cons.mpr (Or.inr hm))]
          omega
        · rw [if_neg hm, if_neg (by
            intro hx
            rcases List.mem_cons.mp hx with h | h
            · exact he h.symm
            · exact hm h)]

lemma allRelevant_sorted (mrcData : List (ClassId × MrcEntry))
    (current : List (ClassId × Nat)) :
    (allRelevantOf mrcData current).Sorted (· ≤ ·) := by
  rw [allRelevantOf]
  exact List.sorted_insertionSort _ _

/-- C8: the victims in the emitted plan appear in ascending order of
access-per-slab pressure: the first components of the plan, read left to
right, have non-decreasing `score` (frequency divided by current slabs, with
the maximal score for classes missing a frequency, a current entry, or with
zero current slabs); in particular every movement of a strictly
lower-pressure victim precedes every movement of a higher-pressure one. -/
theorem claim8_victim_order (trace : List Rec) (apcMap current : List (ClassId × Nat)) :
    ((solve trace apcMap current).plan.map Prod.fst).Sorted
      (fun a b => score (solve trace apcMap current).accessFrequencies current a ≤
        score (solve trace apcMap current).accessFrequencies current b) := by
  by_cases hne : queryMrcMap trace apcMap (sumVals current) = []
  · have hz : solve trace apcMap current = zeroSolve := by
      rw [solve, if_pos (by rw [List.isEmpty_iff]; exact hne)]
    rw [hz]
    simp [zeroSolve, List.Sorted]
  · rw [solve_eq_core trace apcMap current hne]
    show ((solvePlan (queryMrcMap trace apcMap (sumVals current)) current
      (sumVals current)).map Prod.fst).Sorted _
    rw [solvePlan, zip_map_fst]
    have hsorted : (List.insertionSort
        (scoreLe (solveFreqs (queryMrcMap trace apcMap (sumVals current))) current)
        (solveVictims (queryMrcMap trace apcMap (sumVals current)) current
          (sumVals current))).Sorted
        (scoreLe (solveFreqs (queryMrcMap trace apcMap (sumVals current))) current) := by
      haveI : IsTotal ClassId (scoreLe
          (solveFreqs (queryMrcMap trace apcMap (sumVals current))) current) :=
        ⟨fun a b => le_total _ _⟩
      haveI : IsTrans ClassId (scoreLe
          (solveFreqs (queryMrcMap trace apcMap (sumVals current))) current) :=
        ⟨fun _ _ _ => le_trans⟩
      exact List.sorted_insertionSort _ _
    exact List.Pairwise.sublist (List.take_sublist _ _) hsorted

/-- C10: in the emitted plan the receiver components appear in ascending
ClassId order; the receiver sequence is the enumeration of the sorted union
of relevant classes with each receiving class repeated once per slab gained
(`count = optimal - current`), and the i-th emitted pair carries the i-th
element of that sequence. -/
theorem claim10_receiver_order (trace : List Rec) (apcMap current : List (ClassId × Nat)) :
    ((solve trace apcMap current).plan.map Prod.snd).Sorted (· ≤ ·) ∧
    (solve trace apcMap current).plan.map Prod.snd =
      (solveReceivers (queryMrcMap trace apcMap (sumVals current)) current
        (sumVals current)).take ((solve trace apcMap current).plan.length) ∧
    (∀ c, (solveReceivers (queryMrcMap trace apcMap (sumVals current)) current
        (sumVals current)).count c =
      if c ∈ allRelevantOf (queryMrcMap trace apcMap (sumVals current)) current
      then solveOptOf (queryMrcMap trace apcMap (sumVals current)) (sumVals current) c -
        (alookup current c).getD 0
      else 0) := by
  have hsortedR : (solveReceivers (queryMrcMap trace apcMap (sumVals current)) current
      (sumVals current)).Sorted (· ≤ ·) := by
    rw [solveReceivers]
    exact sorted_flatMap_replicate _ _ (allRelevant_sorted _ _)
  have hcount := count_flatMap_replicate
    (fun c => solveOptOf (queryMrcMap trace apcMap (sumVals current)) (sumVals current) c -
      (alookup current c).getD 0)
    (allRelevantOf (queryMrcMap trace apcMap (sumVals current)) current)
    (allRelevant_spec _ current).1
  by_cases hne : queryMrcMap trace apcMap (sumVals current) = []
  · have hz : solve trace apcMap current = zeroSolve := by
      rw [solve, if_pos (by rw [List.isEmpty_iff]; exact hne)]
    rw [hz]
    refine ⟨by simp [zeroSolve, List.Sorted], by simp [zeroSolve], ?_⟩
    intro c
    exact hcount c
  · rw [solve_eq_core trace apcMap current hne]
    have hplan : (solveCore trace apcMap current).plan =
        solvePlan (queryMrcMap trace apcMap (sumVals current)) current (sumVals current) :=
      rfl
    refine ⟨?_, ?_, fun c => hcount c⟩
    · rw [hplan, solvePlan, zip_map_snd]
      exact List.Pairwise.sublist (List.take_sublist _ _) hsortedR
    · rw [hplan, solvePlan, zip_map_snd]

lemma zip_lookup_map {β : Type} (H : ClassId → Nat → β) :
    ∀ (cls : List ClassId) (ks : List Nat), cls.Nodup → cls.length = ks.length →
      cls.map (fun c => H c ((alookup (cls.zip ks) c).getD 0)) =
        (cls.zip ks).map (fun p => H p.1 p.2)
  | [], [], _, _ => rfl
  | [], k :: ks, _, hlen => by simp at hlen
  | c :: cls, [], _, hlen => by simp at hlen
  | c :: cls, k :: ks, hnd, hlen => by
      simp only [List.zip_cons_cons, List.map_cons]
      have hnd2 := List.nodup_cons.mp hnd
      have hlen2 : cls.length = ks.length := by
        simp only [List.length_cons] at hlen
        omega
      have hhead : (alookup ((c, k) :: cls.zip ks) c).getD 0 = k := by
        rw [alookup, if_pos rfl]
        rfl
      have htail : cls.map (fun c2 => H c2 ((alookup ((c, k) :: cls.zip ks) c2).getD 0)) =
          cls.map (fun c2 => H c2 ((alookup (cls.zip ks) c2).getD 0)) := by
        apply List.map_congr_left
        intro c2 hc2
        have hne : ¬ c = c2 := fun he => hnd2.1 (he ▸ hc2)
        rw [alookup, if_neg hne]
      rw [hhead, htail, zip_lookup_map H cls ks hnd2.2 hlen2]

lemma alookup_self (l : List (ClassId × Nat)) (hnd : (l.map Prod.fst).Nodup) :
    ∀ p ∈ l, alookup l p.1 = some p.2 := by
  induction l with
  | nil => intro p hp; exact absurd hp (List.not_mem_nil p)
  | cons q rest ih =>
      intro p hp
      have hnd2 : q.1 ∉ rest.map Prod.fst ∧ (rest.map Prod.fst).Nodup := by
        rw [List.map_cons, List.nodup_cons] at hnd
        exact hnd
      rcases List.mem_cons.mp hp with rfl | hm
      · rw [alookup, if_pos rfl]
      · have hne : ¬ q.1 = p.1 := by
          intro he
          exact hnd2.1 (he ▸ List.mem_map.mpr ⟨p, hm, rfl⟩)
        rw [alookup, if_neg hne]
        exact ih hnd2.2 p hm

/-- The points map stored by `queryMrc` read back through `_getMissRatio`
gives exactly the computed miss ratio for any profiled slab count. -/
lemma getMissRatioAt_entry (ks : List KeyInt) (apc maxSlabs sc : Nat)
    (hsc : sc ≤ maxSlabs) :
    getMissRatioAt (mkEntry ks apc maxSlabs).points sc =
      missRatioAt (classStats ks) apc sc := by
  by_cases h0 : sc = 0
  · subst h0
    rw [getMissRatioAt, if_pos rfl, missRatioAt_zero]
  · rw [getMissRatioAt, if_neg h0]
    rw [show (mkEntry ks apc maxSlabs).points =
      (List.range (maxSlabs + 1)).map
        (fun i => (i, missRatioAt (classStats ks) apc i)) from rfl]
    rw [alookup_range_map (maxSlabs + 1) _ sc, if_pos (by omega)]

lemma getMissRatioAt_entry_anti (ks : List KeyInt) (apc maxSlabs s1 s2 : Nat)
    (h12 : s1 ≤ s2) (h2 : s2 ≤ maxSlabs) :
    getMissRatioAt (mkEntry ks apc maxSlabs).points s2 ≤
      getMissRatioAt (mkEntry ks apc maxSlabs).points s1 := by
  rw [getMissRatioAt_entry ks apc maxSlabs s2 h2,
    getMissRatioAt_entry ks apc maxSlabs s1 (by omega)]
  exact missRatioAt_anti _ apc s1 s2 h12

lemma costSumFrom_zip (mrcData : List (ClassId × MrcEntry)) (bmax : Nat) :
    ∀ (cls2 : List ClassId) (ks2 : List Nat) (i0 : Nat),
      cls2.length = ks2.length →
      (∀ j2, j2 < cls2.length → (solveCls mrcData).getD (i0 + j2) 0 = cls2.getD j2 0) →
      costSumFrom (solveCost mrcData bmax) i0 ks2 =
        ((cls2.zip ks2).map (fun p =>
          ((freqOf mrcData p.1 : ℚ)) *
            getMissRatioAt (ptsOf mrcData p.1) (min p.2 bmax))).sum
  | [], [], i0, _, _ => by simp [costSumFrom]
  | [], k :: ks2, _, hlen, _ => by simp at hlen
  | c :: cls2, [], _, hlen, _ => by simp at hlen
  | c :: cls2, k :: ks2, i0, hlen, hidx => by
      simp only [costSumFrom, List.zip_cons_cons, List.map_cons, List.sum_cons]
      have hc : (solveCls mrcData).getD i0 0 = c := by
        have := hidx 0 (by simp)
        simpa using this
      have hlen2 : cls2.length = ks2.length := by
        simp only [List.length_cons] at hlen
        omega
      have hidx2 : ∀ j2, j2 < cls2.length →
          (solveCls mrcData).getD (i0 + 1 + j2) 0 = cls2.getD j2 0 := by
        intro j2 hj
        have := hidx (j2 + 1) (by simp only [List.length_cons]; omega)
        rw [show i0 + (j2 + 1) = i0 + 1 + j2 by omega] at this
        simpa using this
      have hcost : solveCost mrcData bmax i0 k =
          ((freqOf mrcData c : ℚ)) * getMissRatioAt (ptsOf mrcData c) (min k bmax) := by
        rw [solveCost, hc]
      rw [hcost, costSumFrom_zip mrcData bmax cls2 ks2 (i0 + 1) hlen2 hidx2]

lemma classMisses_map_alloc (mrcData : List (ClassId × MrcEntry))
    (l : List ClassId) (F : ClassId → Nat) :
    classMisses mrcData (l.map (fun c => (c, F c))) =
      (l.map (fun c => ((freqOf mrcData c : ℚ)) *
        getMissRatioAt (ptsOf mrcData c) (F c))).sum := by
  rw [classMisses, List.map_map]
  congr 1
  apply List.map_congr_left
  intro c _
  simp only [Function.comp]
  cases hm : alookup mrcData c with
  | none => simp [freqOf, ptsOf, hm]
  | some e => simp [freqOf, ptsOf, hm]

lemma classMisses_entries (mrcData : List (ClassId × MrcEntry))
    (alloc : List (ClassId × Nat)) :
    classMisses mrcData alloc =
      (alloc.map (fun p => ((freqOf mrcData p.1 : ℚ)) *
        getMissRatioAt (ptsOf mrcData p.1) p.2)).sum := by
  rw [classMisses]
  congr 1
  apply List.map_congr_left
  intro p _
  cases hm : alookup mrcData p.1 with
  | none => simp [freqOf, ptsOf, hm]
  | some e => simp [freqOf, ptsOf, hm]

lemma nat_le_sum (l : List Nat) : ∀ x ∈ l, x ≤ l.sum := by
  induction l with
  | nil => simp
  | cons y l ih =>
      intro x hx
      rcases List.mem_cons.mp hx with rfl | hm
      · simp
      · have := ih x hm
        simp only [List.sum_cons]
        omega

lemma zip_self_map {β : Type} (f : ClassId → Nat) (G : ClassId → Nat → β) :
    ∀ (l : List ClassId),
      ((l.zip (l.map f)).map (fun p => G p.1 p.2)) = l.map (fun c => G c (f c))
  | [] => rfl
  | c :: l => by
      simp only [List.map_cons, List.zip_cons_cons]
      rw [zip_self_map f G l]

lemma solveCls_mem (mrcData : List (ClassId × MrcEntry)) (c : ClassId) :
    c ∈ solveCls mrcData ↔ c ∈ mrcData.map Prod.fst := by
  rw [solveCls, List.mem_insertionSort]

lemma solveCls_ne_nil (mrcData : List (ClassId × MrcEntry)) (hne : mrcData ≠ []) :
    solveCls mrcData ≠ [] := by
  intro h
  have : (solveCls mrcData).length = 0 := by rw [h]; rfl
  rw [solveCls, List.length_insertionSort, List.length_map] at this
  cases mrcData
  · exact hne rfl
  · simp at this

lemma freqOf_not_mem (mrcData : List (ClassId × MrcEntry)) (c : ClassId)
    (hc : c ∉ mrcData.map Prod.fst) : freqOf mrcData c = 0 := by
  rw [freqOf, (alookup_eq_none _ _).mpr hc]

/-- The misses of the reconstructed optimal allocation equal the DP objective
value of the backtracked assignment. -/
lemma classMisses_optAlloc_eq (mrcData : List (ClassId × MrcEntry))
    (current : List (ClassId × Nat)) (bmax : Nat)
    (hne : mrcData ≠ []) (hnd : (solveCls mrcData).Nodup) :
    classMisses mrcData (solveOptAlloc mrcData current bmax) =
      costSum (solveCost mrcData bmax) (solveKs mrcData bmax) := by
  obtain ⟨hsum, hlen, hbnd, b, hb, hcost⟩ := solveKs_spec mrcData bmax hne
  have step1 : classMisses mrcData (solveOptAlloc mrcData current bmax) =
      ((allRelevantOf mrcData current).map
        (fun c => ((freqOf mrcData c : ℚ)) *
          getMissRatioAt (ptsOf mrcData c) (solveOptOf mrcData bmax c))).sum := by
    rw [solveOptAlloc, classMisses_map_alloc]
  have hzero : ∀ c ∈ (allRelevantOf mrcData current).toFinset,
      c ∉ (solveCls mrcData).toFinset →
      ((freqOf mrcData c : ℚ)) *
        getMissRatioAt (ptsOf mrcData c) (solveOptOf mrcData bmax c) = 0 := by
    intro c _ hc
    have : freqOf mrcData c = 0 := by
      apply freqOf_not_mem
      rw [← solveCls_mem]
      exact fun hm => hc (List.mem_toFinset.mpr hm)
    rw [this]
    simp
  have hsub : (solveCls mrcData).toFinset ⊆ (allRelevantOf mrcData current).toFinset := by
    intro c hc
    exact List.mem_toFinset.mpr
      (solveCls_subset_allRelevant mrcData current c (List.mem_toFinset.mp hc))
  rw [step1, list_sum_eq_finset_sum _ _ (allRelevant_spec mrcData current).1,
    ← Finset.sum_subset hsub hzero,
    ← list_sum_eq_finset_sum _ _ hnd]
  simp only [solveOptOf]
  rw [zip_lookup_map
    (fun c k => ((freqOf mrcData c : ℚ)) * getMissRatioAt (ptsOf mrcData c) k)
    (solveCls mrcData) (solveKs mrcData bmax) hnd hlen.symm]
  rw [costSum, costSumFrom_zip mrcData bmax (solveCls mrcData) (solveKs mrcData bmax) 0
    hlen.symm (by
      intro j2 _
      rw [Nat.zero_add])]
  apply congrArg
  apply List.map_congr_left
  intro p hp
  have hp2 : p.2 ∈ solveKs mrcData bmax := (List.of_mem_zip hp).2
  rw [min_eq_left (hbnd p.2 hp2)]

lemma sum_curOf_le (current : List (ClassId × Nat)) (cls : List ClassId)
    (hnd : cls.Nodup) (hndc : (current.map Prod.fst).Nodup)
    (hcov : ∀ c ∈ cls, c ∈ current.map Prod.fst) :
    (cls.map (fun c => (alookup current c).getD 0)).sum ≤ sumVals current := by
  have h2 : ((current.map Prod.fst).map (fun c => (alookup current c).getD 0)).sum =
      sumVals current := by
    rw [List.map_map, sumVals]
    congr 1
    apply List.map_congr_left
    intro p hp
    simp only [Function.comp]
    rw [alookup_self current hndc p hp]
    rfl
  rw [list_sum_eq_finset_sum cls _ hnd, ← h2,
    list_sum_eq_finset_sum _ _ hndc]
  apply Finset.sum_le_sum_of_subset
  intro c hc
  exact List.mem_toFinset.mpr (hcov c (List.mem_toFinset.mp hc))

/-- The misses of the current allocation collapse to a sum over the MRC-view
classes, when every view class has a current entry. -/
lemma classMisses_current_eq (mrcData : List (ClassId × MrcEntry))
    (current : List (ClassId × Nat))
    (hndc : (current.map Prod.fst).Nodup) (hnd : (solveCls mrcData).Nodup)
    (hcov : ∀ c ∈ solveCls mrcData, c ∈ current.map Prod.fst) :
    classMisses mrcData current =
      ((solveCls mrcData).map (fun c => ((freqOf mrcData c : ℚ)) *
        getMissRatioAt (ptsOf mrcData c) ((alookup current c).getD 0))).sum := by
  rw [classMisses_entries]
  have e1 : current.map (fun p => ((freqOf mrcData p.1 : ℚ)) *
        getMissRatioAt (ptsOf mrcData p.1) p.2) =
      (current.map Prod.fst).map (fun c => ((freqOf mrcData c : ℚ)) *
        getMissRatioAt (ptsOf mrcData c) ((alookup current c).getD 0)) := by
    rw [List.map_map]
    apply List.map_congr_left
    intro p hp
    simp only [Function.comp]
    rw [alookup_self current hndc p hp]
    rfl
  rw [e1, list_sum_eq_finset_sum _ _ hndc, list_sum_eq_finset_sum _ _ hnd]
  symm
  apply Finset.sum_subset
  · intro c hc
    exact List.mem_toFinset.mpr (hcov c (List.mem_toFinset.mp hc))
  · intro c _ hc
    have : freqOf mrcData c = 0 := by
      apply freqOf_not_mem
      rw [← solveCls_mem]
      exact fun hm => hc (List.mem_toFinset.mpr hm)
    rw [this]
    simp

/-- Core optimality inequality: provided every MRC-view class appears among
the keys of the current allocation, the expected misses of the DP-chosen
allocation never exceed those of the current allocation. -/
lemma solve_misses_le (trace : List Rec) (apcMap current : List (ClassId × Nat))
    (hsa : (apcMap.map Prod.fst).Sorted (· < ·))
    (hndc : (current.map Prod.fst).Nodup)
    (hne : queryMrcMap trace apcMap (sumVals current) ≠ [])
    (hcover : ∀ c ∈ (queryMrcMap trace apcMap (sumVals current)).map Prod.fst,
      c ∈ current.map Prod.fst) :
    classMisses (queryMrcMap trace apcMap (sumVals current))
        (solveOptAlloc (queryMrcMap trace apcMap (sumVals current)) current
          (sumVals current)) ≤
      classMisses (queryMrcMap trace apcMap (sumVals current)) current := by
  set B := sumVals current with hB
  set M := queryMrcMap trace apcMap B with hM
  have hnd : (solveCls M).Nodup := solveCls_nodup trace apcMap B hsa
  obtain ⟨hsum, hlen, hbnd, b, hb, hcost⟩ := solveKs_spec M B hne
  have hcov2 : ∀ c ∈ solveCls M, c ∈ current.map Prod.fst := fun c hc =>
    hcover c ((solveCls_mem M c).mp hc)
  obtain ⟨c₀, clsRest, hcls⟩ : ∃ c₀ clsRest, solveCls M = c₀ :: clsRest := by
    cases h : solveCls M with
    | nil => exact absurd h (solveCls_ne_nil M hne)
    | cons a l => exact ⟨a, l, rfl⟩
  set curOf := fun c => (alookup current c).getD 0 with hcur
  have hsumle : ((solveCls M).map curOf).sum ≤ B :=
    sum_curOf_le current (solveCls M) hnd hndc hcov2
  set D := B - ((solveCls M).map curOf).sum with hD
  set ks2 := (curOf c₀ + D) :: clsRest.map curOf with hks2
  have hkcur : (solveCls M).map curOf = curOf c₀ :: clsRest.map curOf := by
    rw [hcls]
    rfl
  have hsum0 : ((solveCls M).map curOf).sum = curOf c₀ + (clsRest.map curOf).sum := by
    rw [hkcur, List.sum_cons]
  have hlen2 : ks2.length = (solveCls M).length := by
    rw [hks2, hcls]
    simp
  have hsum2 : ks2.sum = B := by
    rw [hks2, List.sum_cons]
    omega
  have hbnd2 : ∀ k ∈ ks2, k ≤ B := by
    intro k hk
    rw [hks2] at hk
    rcases List.mem_cons.mp hk with rfl | hm
    · omega
    · have := nat_le_sum _ k hm
      omega
  have hb2 : (dpTable (solveCost M B) B ks2.length ks2.sum).1 = some b := by
    rw [hlen2, hsum2]
    exact hb
  have hmin := dp_min (solveCost M B) B ks2 hbnd2 b hb2
  have htail : costSumFrom (solveCost M B) 1 (clsRest.map curOf) =
      (clsRest.map (fun c => ((freqOf M c : ℚ)) *
        getMissRatioAt (ptsOf M c) (curOf c))).sum := by
    rw [costSumFrom_zip M B clsRest (clsRest.map curOf) 1 (by simp) (by
      intro j2 hj
      rw [hcls, show 1 + j2 = j2 + 1 by omega]
      simp)]
    rw [zip_self_map curOf
      (fun c k => ((freqOf M c : ℚ)) * getMissRatioAt (ptsOf M c) (min k B)) clsRest]
    apply congrArg
    apply List.map_congr_left
    intro c hc
    have h1 : curOf c ≤ (clsRest.map curOf).sum :=
      nat_le_sum _ _ (List.mem_map.mpr ⟨c, hc, rfl⟩)
    rw [min_eq_left (by omega)]
  have hc0mem : c₀ ∈ solveCls M := by
    rw [hcls]
    exact List.mem_cons_self _ _
  have hc0M : c₀ ∈ M.map Prod.fst := (solveCls_mem M c₀).mp hc0mem
  obtain ⟨e, he⟩ : ∃ e, alookup M c₀ = some e :=
    Option.isSome_iff_exists.mp ((alookup_isSome_iff _ _).mpr hc0M)
  have hpts : ptsOf M c₀ = e.points := by
    rw [ptsOf, he]
  obtain ⟨apc, _, _, _, _, hee⟩ := queryMrc_mem_inv (alookup_mem M c₀ e he)
  have hc0D : curOf c₀ + D ≤ B := by omega
  have hanti : getMissRatioAt (ptsOf M c₀) (curOf c₀ + D) ≤
      getMissRatioAt (ptsOf M c₀) (curOf c₀) := by
    rw [hpts, hee]
    exact getMissRatioAt_entry_anti _ apc B _ _ (by omega) hc0D
  have hhead : solveCost M B 0 (curOf c₀ + D) ≤
      ((freqOf M c₀ : ℚ)) * getMissRatioAt (ptsOf M c₀) (curOf c₀) := by
    have hg : (solveCls M).getD 0 0 = c₀ := by
      rw [hcls]
      rfl
    rw [solveCost, hg, min_eq_left hc0D]
    exact mul_le_mul_of_nonneg_left hanti (by positivity)
  have hcm : classMisses M current =
      ((solveCls M).map (fun c => ((freqOf M c : ℚ)) *
        getMissRatioAt (ptsOf M c) (curOf c))).sum :=
    classMisses_current_eq M current hndc hnd hcov2
  have hcost2 : costSum (solveCost M B) ks2 =
      solveCost M B 0 (curOf c₀ + D) +
        costSumFrom (solveCost M B) 1 (clsRest.map curOf) := by
    rw [hks2, costSum, costSumFrom]
  have hcls_sum : ((solveCls M).map (fun c => ((freqOf M c : ℚ)) *
      getMissRatioAt (ptsOf M c) (curOf c))).sum =
      ((freqOf M c₀ : ℚ)) * getMissRatioAt (ptsOf M c₀) (curOf c₀) +
        (clsRest.map (fun c => ((freqOf M c : ℚ)) *
          getMissRatioAt (ptsOf M c) (curOf c))).sum := by
    rw [hcls, List.map_cons, List.sum_cons]
  calc classMisses M (solveOptAlloc M current B)
      = costSum (solveCost M B) (solveKs M B) :=
        classMisses_optAlloc_eq M current B hne hnd
    _ = b := hcost.symm
    _ ≤ costSum (solveCost M B) ks2 := hmin
    _ = solveCost M B 0 (curOf c₀ + D) +
        costSumFrom (solveCost M B) 1 (clsRest.map curOf) := hcost2
    _ ≤ ((freqOf M c₀ : ℚ)) * getMissRatioAt (ptsOf M c₀) (curOf c₀) +
        (clsRest.map (fun c => ((freqOf M c : ℚ)) *
          getMissRatioAt (ptsOf M c) (curOf c))).sum :=
        add_le_add hhead (le_of_eq htail)
    _ = classMisses M current := by rw [hcm, hcls_sum]

/-- C2 counterexample: with the window holding three distinct keys of class 0,
`allocsPerSlab = {0 ↦ 1}` and `currentAllocation = {1 ↦ 5}`, the solver
returns `mrOld = 0` (class 1 is absent from the MRC view, and class 0 — absent
from the current allocation — contributes nothing to the old misses) but
`mrNew = 1`, violating `mrNew ≤ mrOld + ε` for any slack `ε < 1`. -/
theorem claim2_counterexample :
    (solve [(1, 0), (2, 0), (3, 0)] [(0, 1)] [(1, 5)]).mrOld = 0 ∧
    (solve [(1, 0), (2, 0), (3, 0)] [(0, 1)] [(1, 5)]).mrNew = 1 ∧
    ¬ ((solve [(1, 0), (2, 0), (3, 0)] [(0, 1)] [(1, 5)]).mrNew ≤
        (solve [(1, 0), (2, 0), (3, 0)] [(0, 1)] [(1, 5)]).mrOld + 1 / 2) := by
  have hs5 : sumVals [((1 : ClassId), (5 : Nat))] = 5 := rfl
  have hM : queryMrcMap [(1, 0), (2, 0), (3, 0)] [(0, 1)] 5 =
      [(0, mkEntry (subtrace 0 [(1, 0), (2, 0), (3, 0)]) 1 5)] := rfl
  have hne : queryMrcMap [(1, 0), (2, 0), (3, 0)] [(0, 1)]
      (sumVals [((1 : ClassId), (5 : Nat))]) ≠ [] := by
    rw [hs5, hM]
    exact List.cons_ne_nil _ _
  have hcore := solve_eq_core [(1, 0), (2, 0), (3, 0)] [(0, 1)] [(1, 5)] hne
  have htr : solveTotalReq (queryMrcMap [(1, 0), (2, 0), (3, 0)] [(0, 1)] 5) = 3 := rfl
  have hlookup1 : alookup (queryMrcMap [(1, 0), (2, 0), (3, 0)] [(0, 1)] 5) 1 =
      none := rfl
  have hlookup0 : alookup (queryMrcMap [(1, 0), (2, 0), (3, 0)] [(0, 1)] 5) 0 =
      some (mkEntry (subtrace 0 [(1, 0), (2, 0), (3, 0)]) 1 5) := rfl
  have hmissOld : classMisses (queryMrcMap [(1, 0), (2, 0), (3, 0)] [(0, 1)] 5)
      [(1, 5)] = 0 := by
    rw [classMisses]
    simp only [List.map_cons, List.map_nil, hlookup1, List.sum_cons, List.sum_nil]
    norm_num
  have hopt : solveOptAlloc (queryMrcMap [(1, 0), (2, 0), (3, 0)] [(0, 1)] 5)
      [(1, 5)] 5 = [(0, 5), (1, 0)] := rfl
  have hgmr : getMissRatioAt
      (mkEntry (subtrace 0 [(1, 0), (2, 0), (3, 0)]) 1 5).points 5 = 1 := by
    rw [getMissRatioAt_entry _ 1 5 5 (le_refl 5)]
    rw [missRatioAt, if_pos (by exact ⟨by decide, by decide⟩)]
    rw [show hitCnt (classStats (subtrace 0 [(1, 0), (2, 0), (3, 0)])) (5 * 1) = 0
      from rfl]
    rw [show (classStats (subtrace 0 [(1, 0), (2, 0), (3, 0)])).n = 3 from rfl]
    rw [clamp01]
    norm_num
  have hn3 : ((mkEntry (subtrace 0 [(1, 0), (2, 0), (3, 0)]) 1 5).n : ℚ) = 3 := by
    norm_num [show (mkEntry (subtrace 0 [(1, 0), (2, 0), (3, 0)]) 1 5).n = 3 from rfl]
  have hmissNew : classMisses (queryMrcMap [(1, 0), (2, 0), (3, 0)] [(0, 1)] 5)
      [(0, 5), (1, 0)] = 3 := by
    rw [classMisses]
    simp only [List.map_cons, List.map_nil, hlookup0, hlookup1, List.sum_cons,
      List.sum_nil]
    rw [hgmr, hn3]
    norm_num
  have hOld : (solve [(1, 0), (2, 0), (3, 0)] [(0, 1)] [(1, 5)]).mrOld = 0 := by
    rw [hcore]
    show (if solveTotalReq (queryMrcMap [(1, 0), (2, 0), (3, 0)] [(0, 1)]
        (sumVals [(1, 5)])) ≠ 0 then
      classMisses (queryMrcMap [(1, 0), (2, 0), (3, 0)] [(0, 1)] (sumVals [(1, 5)]))
          [(1, 5)] /
        ((solveTotalReq (queryMrcMap [(1, 0), (2, 0), (3, 0)] [(0, 1)]
          (sumVals [(1, 5)])) : ℚ))
      else 0) = 0
    simp only [hs5, htr, hmissOld]
    norm_num
  have hNew : (solve [(1, 0), (2, 0), (3, 0)] [(0, 1)] [(1, 5)]).mrNew = 1 := by
    rw [hcore]
    show (if solveTotalReq (queryMrcMap [(1, 0), (2, 0), (3, 0)] [(0, 1)]
        (sumVals [(1, 5)])) ≠ 0 then
      classMisses (queryMrcMap [(1, 0), (2, 0), (3, 0)] [(0, 1)] (sumVals [(1, 5)]))
          (solveOptAlloc (queryMrcMap [(1, 0), (2, 0), (3, 0)] [(0, 1)]
            (sumVals [(1, 5)])) [(1, 5)] (sumVals [(1, 5)])) /
        ((solveTotalReq (queryMrcMap [(1, 0), (2, 0), (3, 0)] [(0, 1)]
          (sumVals [(1, 5)])) : ℚ))
      else 0) = 1
    simp only [hs5, htr, hopt, hmissNew]
    norm_num
  refine ⟨hOld, hNew, ?_⟩
  rw [hOld, hNew]
  norm_num

/-- C2 (amended): provided every class of the MRC view also appears among the
keys of `currentAllocation`, the weighted miss rate of the DP-chosen
allocation never exceeds that of the current allocation — exactly, with no
floating-point slack, since the model computes in ℚ.  (The claim as stated,
without this proviso, is refuted by `claim2_counterexample`: a view class
absent from the current allocation adds misses only on the new side.) -/
theorem claim2_dp_improves (trace : List Rec) (apcMap current : List (ClassId × Nat))
    (hsa : (apcMap.map Prod.fst).Sorted (· < ·))
    (hsc : (current.map Prod.fst).Sorted (· < ·))
    (hcover : ∀ c ∈ (queryMrcMap trace apcMap (sumVals current)).map Prod.fst,
      c ∈ current.map Prod.fst) :
    (solve trace apcMap current).mrNew ≤ (solve trace apcMap current).mrOld := by
  have hndc : (current.map Prod.fst).Nodup := hsc.imp (fun h => Nat.ne_of_lt h)
  by_cases hne : queryMrcMap trace apcMap (sumVals current) = []
  · rw [solve, if_pos (by rw [List.isEmpty_iff]; exact hne)]
    exact le_refl _
  · rw [solve_eq_core trace apcMap current hne]
    have hmisses := solve_misses_le trace apcMap current hsa hndc hne hcover
    show (if solveTotalReq (queryMrcMap trace apcMap (sumVals current)) ≠ 0 then
        classMisses (queryMrcMap trace apcMap (sumVals current))
            (solveOptAlloc (queryMrcMap trace apcMap (sumVals current)) current
              (sumVals current)) /
          ((solveTotalReq (queryMrcMap trace apcMap (sumVals current)) : ℚ))
      else 0) ≤
      (if solveTotalReq (queryMrcMap trace apcMap (sumVals current)) ≠ 0 then
        classMisses (queryMrcMap trace apcMap (sumVals current)) current /
          ((solveTotalReq (queryMrcMap trace apcMap (sumVals current)) : ℚ))
      else 0)
    by_cases ht : solveTotalReq (queryMrcMap trace apcMap (sumVals current)) ≠ 0
    · rw [if_pos ht, if_pos ht]
      have htpos : (0 : ℚ) <
          ((solveTotalReq (queryMrcMap trace apcMap (sumVals current)) : ℚ)) := by
        have : 0 < solveTotalReq (queryMrcMap trace apcMap (sumVals current)) :=
          Nat.pos_of_ne_zero ht
        exact_mod_cast this
      exact div_le_div_of_nonneg_right hmisses (le_of_lt htpos)
    · rw [if_neg ht, if_neg ht]

/-- C2 witness for the amended claim: two accesses to one key of class 0 with
`allocsPerSlab = {0 ↦ 1}` and `currentAllocation = {0 ↦ 2}` (the MRC view
`{0}` is covered by the current allocation). -/
theorem claim2_dp_improves_witness :
    (solve [(1, 0), (1, 0)] [(0, 1)] [(0, 2)]).mrNew ≤
      (solve [(1, 0), (1, 0)] [(0, 1)] [(0, 2)]).mrOld :=
  claim2_dp_improves [(1, 0), (1, 0)] [(0, 1)] [(0, 2)]
    (by simp [List.Sorted])
    (by simp [List.Sorted])
    (by
      rw [show queryMrcMap [(1, 0), (1, 0)] [(0, 1)] (sumVals [(0, 2)]) =
        [(0, mkEntry (subtrace 0 [(1, 0), (1, 0)]) 1 2)] from rfl]
      intro c hc
      simp only [List.map_cons, List.map_nil, List.mem_singleton] at hc ⊢
      exact hc)

/-- C9: the constructor succeeds exactly on capacities `k ≥ 1`, creating a
profiler whose ring capacity and physical buffer length are `k` with zeroed
indices, and fails with the invalid-argument signal exactly when `k < 1`. -/
theorem claim9_constructor (k : Nat) :
    (1 ≤ k → ∃ r, initRing k = Except.ok r ∧ r.maxLen = k ∧ r.buf.length = k ∧
      r.size = 0 ∧ r.head = 0) ∧
    (k < 1 → initRing k = Except.error "Circular buffer size k must be at least 1.") := by
  constructor
  · intro hk
    refine ⟨{ buf := List.replicate k (0, 0), maxLen := k, size := 0, head := 0 }, ?_, rfl, ?_, rfl, rfl⟩
    · unfold initRing
      rw [if_neg (by omega)]
    · simp
  · intro hk
    unfold initRing
    rw [if_pos hk]

/-- C9 witness: capacity 1 succeeds, capacity 0 errors. -/
theorem claim9_constructor_witness :
    (∃ r, initRing 1 = Except.ok r ∧ r.maxLen = 1 ∧ r.buf.length = 1 ∧
      r.size = 0 ∧ r.head = 0) ∧
    initRing 0 = Except.error "Circular buffer size k must be at least 1." :=
  ⟨(claim9_constructor 1).1 (by decide), (claim9_constructor 0).2 (by decide)⟩

end FootprintMRC
